import Mathlib

/-!
# Verification of the vscode-alembic migration-state module

Shallow embedding of the string-processing core of the `vscode-alembic`
extension, translated from the TypeScript sources:

* `src/services/alembicService.ts` — `parseMigrations`, the applied-set
  walk inside `getMigrations`, `getMigrationGraph`, and the
  `close`-handler of `executeCommand`;
* `src/utils/alembicUtils.ts` — `getShortHash`, `formatMessage`;
* `src/utils/iniEditor.ts` — `updateIniSection`.

JavaScript strings are modelled as `String` (lists of characters); the
JS-specific behaviours that matter here — `split(/\r?\n/)`, `String.trim`,
`\s`/`.` character classes of regexes, string truthiness — are modelled
explicitly by executable functions below.
-/

namespace VMA

/-! ## JavaScript character classes and primitive string operations -/

/-- The JS regex class `\s` (WhiteSpace ∪ LineTerminator):
TAB, LF, VT, FF, CR, SP, NBSP, BOM, and the Unicode space separators. -/
def isSpaceJS (c : Char) : Bool :=
  c.val == 0x9 || c.val == 0xa || c.val == 0xb || c.val == 0xc ||
  c.val == 0xd || c.val == 0x20 || c.val == 0xa0 || c.val == 0x1680 ||
  (0x2000 ≤ c.val && c.val ≤ 0x200a) || c.val == 0x2028 || c.val == 0x2029 ||
  c.val == 0x202f || c.val == 0x205f || c.val == 0x3000 || c.val == 0xfeff

/-- The JS regex class `.` (without the `s` flag): everything except
LF, CR, LS, PS. -/
def dotJS (c : Char) : Bool :=
  !(c.val == 0xa || c.val == 0xd || c.val == 0x2028 || c.val == 0x2029)

/-- Replace every CRLF pair by LF, scanning left to right (a carriage
return not followed by a line feed is kept). -/
def crlfToLf : List Char → List Char
  | [] => []
  | [c] => [c]
  | c :: d :: rest =>
    if c = '\r' ∧ d = '\n' then '\n' :: crlfToLf rest
    else c :: crlfToLf (d :: rest)

/-- `s.split("\n")` on a character list (plain-string split, used by
`parseMigrations` on the history output). -/
def splitLF : List Char → List (List Char)
  | [] => [[]]
  | c :: rest =>
    if c = '\n' then [] :: splitLF rest
    else
      match splitLF rest with
      | [] => [[c]]
      | l :: ls => (c :: l) :: ls

/-- `content.split(/\r?\n/)` on a character list: the regex engine takes
successive leftmost matches of `\r?\n` with a greedy `\r?`, so each
line feed together with an immediately preceding carriage return is a
separator, and every other carriage return is ordinary content — that
is, normalise CRLF to LF and split on LF. -/
def splitRN (cs : List Char) : List (List Char) := splitLF (crlfToLf cs)

/-- `lines.join("\n")` on character lists. -/
def joinLF : List (List Char) → List Char
  | [] => []
  | [l] => l
  | l :: ls => l ++ '\n' :: joinLF ls

/-- `String.prototype.trim` on a character list (strip `\s` characters
from both ends). -/
def trimList (cs : List Char) : List Char :=
  ((cs.dropWhile isSpaceJS).reverse.dropWhile isSpaceJS).reverse

/-- `String.prototype.trim` on strings. -/
def jsTrim (s : String) : String := ⟨trimList s.data⟩

/-! ## Data model (`src/models/migration.ts`, as used by the service)

`Migration` record: `id`, `shortId`, `message`, `isCurrent`, `isApplied`,
and an optional `downRevision` (TS `string | undefined`). -/

structure Migration where
  id : String
  shortId : String
  message : String
  isCurrent : Bool
  isApplied : Bool
  downRevision : Option String
deriving Repr, DecidableEq

/-- JS truthiness of a `string | undefined` value: `undefined` and `""`
are falsy. -/
def truthyStrOpt : Option String → Bool
  | none => false
  | some s => s ≠ ""

/-! ## `AlembicUtils.getShortHash` and `AlembicUtils.formatMessage`
(`src/utils/alembicUtils.ts`) -/

/-- `getShortHash(hash, length = 8)`: `hash?.substring(0, length) || ""`.
For a non-null string argument this is the prefix of the first `length`
UTF-16 units (the `|| ""` only maps `""` to itself). -/
def getShortHash (hash : String) (length : Nat) : String :=
  ⟨hash.data.take length⟩

/-- `formatMessage(message, maxLength = 50)` from `alembicUtils.ts`:
empty (falsy) message yields `"No description"`; a message not longer
than `maxLength` is returned unchanged; otherwise the first
`maxLength - 3` characters plus `"..."`. -/
def formatMessage (message : String) (maxLength : Nat) : String :=
  if message = "" then "No description"
  else if message.length ≤ maxLength then message
  else ⟨message.data.take (maxLength - 3) ++ ['.', '.', '.']⟩

/-! ## `AlembicService.executeCommand` close handler
(`src/services/alembicService.ts` lines 588-594)

The promise settles when the subprocess emits `close`:
exit code `0` resolves with the captured stdout; any other exit code
rejects with `new Error(stderr || "Process exited with code " + code)`. -/

def executeCommandClose (code : Int) (stdout stderr : String) :
    Except String String :=
  if code = 0 then .ok stdout
  else .error (if stderr = "" then "Process exited with code " ++ toString code
               else stderr)

/-! ## The applied-set walk (`AlembicService.getMigrations`,
`src/services/alembicService.ts` lines 223-244)

The TS code builds `idToDown` (a later entry overwrites an earlier one
with the same id) and then runs

    let walker = current;
    while (walker) { applied.add(walker); walker = idToDown[walker]; }

The `while` loop is modelled with explicit fuel; `none` means the loop
has not finished within the given number of iterations (for every fuel
value, on a divergent input). -/

/-- `idToDown[m.id] = m.downRevision` for each migration in order
(last assignment wins); lookup of an absent key is `undefined`. -/
def idToDown (ms : List Migration) : String → Option String :=
  ms.foldl (fun f m => fun x => if x == m.id then m.downRevision else f x)
    (fun _ => none)

/-- JS `Set.add` (insertion-ordered, no duplicates). -/
def setAdd (s : List String) (x : String) : List String :=
  if s.contains x then s else s ++ [x]

/-- One fuel-indexed run of the `while (walker)` loop.  `walker` is the
JS `string | undefined` variable; the loop also stops on the falsy `""`. -/
def walkFuel (next : String → Option String) :
    Nat → Option String → List String → Option (List String)
  | _, none, applied => some applied
  | 0, some s, applied => if s = "" then some applied else none
  | n + 1, some s, applied =>
    if s = "" then some applied
    else walkFuel next n (next s) (setAdd applied s)

/-- The applied-set resolver of `getMigrations` (lines 223-244): find the
current migration; if its id is truthy, walk the ancestor chain and mark
exactly the visited ids applied, otherwise mark every migration
not-applied.  `none` propagates a walk that did not finish in `fuel`
iterations. -/
def resolveApplied (ms : List Migration) (fuel : Nat) :
    Option (List Migration) :=
  match (ms.find? (fun m => m.isCurrent)).map (fun m => m.id) with
  | some current =>
    if current = "" then some (ms.map fun m => { m with isApplied := false })
    else
      match walkFuel (idToDown ms) fuel (some current) [] with
      | none => none
      | some applied =>
        some (ms.map fun m => { m with isApplied := applied.contains m.id })
  | none => some (ms.map fun m => { m with isApplied := false })

/-! ## Graph projection (`AlembicService.getMigrationGraph`,
`src/services/alembicService.ts` lines 253-281) -/

structure GraphNode where
  id : String
  label : String
  title : String
  color : String
  fontColor : String
deriving Repr, DecidableEq

structure GraphEdge where
  fromRev : String
  toRev : String
  arrows : String
deriving Repr, DecidableEq

/-- Node colour: current → green, applied → blue, pending → amber. -/
def nodeColor (m : Migration) : String :=
  if m.isCurrent then "#4CAF50"
  else if m.isApplied then "#2196F3" else "#FFC107"

/-- The projection part of `getMigrationGraph`: one node per migration,
and one edge per migration whose `downRevision` is truthy
(`migrations.filter((m) => m.downRevision)`). -/
def getMigrationGraph (ms : List Migration) :
    List GraphNode × List GraphEdge :=
  (ms.map fun m =>
    { id := m.id, label := m.shortId, title := m.message,
      color := nodeColor m, fontColor := "white" },
   (ms.filter fun m => truthyStrOpt m.downRevision).map fun m =>
    { fromRev := m.downRevision.getD "", toRev := m.id, arrows := "to" })

/-! ## `AlembicService.parseMigrations`
(`src/services/alembicService.ts` lines 339-368)

Each history line is matched against

    /^([a-f0-9]+)\s+\->\s+([a-f0-9]+)?\s*,?\s*(.*)$/

Every boundary in this pattern separates disjoint character classes
(hex digits are not `\s`, `\s` characters are not `-`, `,` or hex), so
leftmost-greedy matching coincides with maximal munch: each `+`/`*`/`?`
consumes as much as possible, and the overall match succeeds exactly
when the leftover tail (group 3) consists of `.`-matchable characters.
`matchHistoryLine` implements that maximal munch and returns the three
captured groups `(downRev, id?, message)`. -/

/-- Group character class `[a-f0-9]`. -/
def isHexLower (c : Char) : Bool :=
  ('a' ≤ c && c ≤ 'f') || ('0' ≤ c && c ≤ '9')

/-- The anchored history-line regex, as the triple of captured groups. -/
def matchHistoryLine (line : List Char) :
    Option (List Char × Option (List Char) × List Char) :=
  let p1 := line.span isHexLower
  if p1.1.isEmpty then none else
  let p2 := p1.2.span isSpaceJS
  if p2.1.isEmpty then none else
  match p2.2 with
  | '-' :: '>' :: r3 =>
    let p4 := r3.span isSpaceJS
    if p4.1.isEmpty then none else
    let p5 := p4.2.span isHexLower
    let p6 := p5.2.span isSpaceJS
    let r7 := match p6.2 with
      | ',' :: t => t
      | other => other
    let p8 := r7.span isSpaceJS
    if p8.2.all dotJS then
      some (p1.1, (if p5.1.isEmpty then none else some p5.1), p8.2)
    else none
  | _ => none

/-- The per-line body of the `parseMigrations` loop: lines that do not
match the regex, or whose `id` group is absent (`if (id)`), are skipped;
otherwise a `Migration` is built with `isCurrent` by string equality
against the trimmed current output and `downRevision` cleared when the
captured parent text is the literal `None`. -/
def parseLine (currentMigration : List Char) (showFullHash : Bool)
    (line : List Char) : Option Migration :=
  match matchHistoryLine line with
  | none => none
  | some (downRev, idOpt, message) =>
    match idOpt with
    | none => none
    | some id =>
      some
        { id := ⟨id⟩,
          shortId := if showFullHash then ⟨id⟩ else getShortHash ⟨id⟩ 8,
          message := formatMessage ⟨trimList message⟩ 50,
          isCurrent := id == currentMigration,
          isApplied := true,
          downRevision := if downRev = "None".data then none
                          else some ⟨downRev⟩ }

/-- `parseMigrations(historyOutput, currentOutput)`: split the history
output on `"\n"`, parse each line, and skip the rest.
`showFullHash` is the configuration flag read inside the loop. -/
def parseMigrations (historyOutput currentOutput : String)
    (showFullHash : Bool) : List Migration :=
  (splitLF historyOutput.data).filterMap
    (parseLine (trimList currentOutput.data) showFullHash)

/-! ## `updateIniSection` (`src/utils/iniEditor.ts` lines 38-110)

The TS function:

1. splits `content` on `/\r?\n/`;
2. scans for the section: `sectionStart` is the first line whose trim
   equals `"[" + section + "]"`; after that, the first line whose trim
   starts with `"["` but differs from the header sets `sectionEnd`
   (a repeated identical header does **not** end the section); with no
   such line `sectionEnd` stays `lines.length`;
3. if the section is absent, returns
   `content + (content.endsWith("\n") ? "" : "\n")
    + ["", header, ...entries].join("\n") + "\n"` — the original text
   is kept byte-for-byte;
4. otherwise, each line strictly between `sectionStart` and
   `sectionEnd` is tested against the regexes
   `^\s*<escaped key>\s*=.*$` in `Object.keys(updates)` order and the
   first match rewrites the line to `` `${key} = ${updates[key]}` ``;
   keys never matched are appended as `` `${k} = ${v}` `` lines spliced
   in just before `sectionEnd`; the result is `lines.join("\n")`. -/

/-- Does a character list start with `[` (the `line.trim().startsWith("[")`
test is applied to trimmed lines)? -/
def bracketStart : List Char → Bool
  | [] => false
  | c :: _ => c == '[' 

/-- `` `[${section}]` ``. -/
def headerOf (sect : List Char) : List Char := '[' :: (sect ++ [']'])

/-- All suffixes of a line reachable by deleting a prefix of `\s`
characters — exactly the decompositions the `^\s*` part of the key
regex can produce. -/
def wsSplits : List Char → List (List Char)
  | [] => [[]]
  | c :: rest => (c :: rest) :: (if isSpaceJS c then wsSplits rest else [])

/-- The `=.*$` part of the key regex: a literal `=` followed by a
`.`-matchable tail reaching the end anchor. -/
def eqTailTest : List Char → Bool
  | [] => false
  | c :: tail => c == '=' && tail.all dotJS

/-- Whether the anchored regex `^\s*<key>\s*=.*$` (the key escaped to a
literal by `escapeRegex`) accepts a line: leading `\s`, the key
verbatim, more `\s`, a literal `=`, then a `.`-matchable tail up to the
end anchor. -/
def keyLineTest (k : List Char) (line : List Char) : Bool :=
  (wsSplits line).any fun r1 =>
    k.isPrefixOf r1 &&
      ((wsSplits (r1.drop k.length)).any eqTailTest)

/-- `` `${key} = ${value}` ``. -/
def mkKVLine (k v : List Char) : List Char := k ++ ' ' :: '=' :: ' ' :: v

/-- One iteration of the rewrite loop on a single line: the first key
(in entry order) whose regex accepts the line rewrites it; otherwise the
line is untouched.  (The TS loop rewrites `lines[i]` in place and
`break`s out of the inner regex loop; distinct indices are independent.) -/
def rewriteLine (updates : List (List Char × List Char))
    (line : List Char) : List Char :=
  match updates.find? (fun kv => keyLineTest kv.1 line) with
  | some kv => mkKVLine kv.1 kv.2
  | none => line

/-- The key recorded in `updatedKeys` by the same iteration, if any. -/
def matchedKey? (updates : List (List Char × List Char))
    (line : List Char) : Option (List Char) :=
  (updates.find? (fun kv => keyLineTest kv.1 line)).map (fun kv => kv.1)

/-- Index of the first element satisfying `p`. -/
def firstIdx? (p : α → Bool) : List α → Option Nat
  | [] => none
  | a :: l => if p a then some 0 else (firstIdx? p l).map (· + 1)

/-- `line.trim() === sectionHeader`. -/
def isHeaderLine (header l : List Char) : Bool := trimList l == header

/-- A line that terminates the section scan: trimmed, it starts with
`[` and differs from the header. -/
def endsSection (header l : List Char) : Bool :=
  bracketStart (trimList l) && !(trimList l == header)

/-- `sectionStart`: index of the first line whose trim equals the
header (lines that start with `[` but are not the header are skipped by
the scan loop before `inSection` is set). -/
def sectionStartIdx? (lines : List (List Char)) (header : List Char) :
    Option Nat :=
  firstIdx? (isHeaderLine header) lines

/-- `sectionEnd`: the first line after `sectionStart` whose trim starts
with `[` and is not the header; defaults to `lines.length`. -/
def sectionEndIdx (lines : List (List Char)) (header : List Char)
    (s : Nat) : Nat :=
  match firstIdx? (endsSection header) (lines.drop (s + 1)) with
  | some k => s + 1 + k
  | none => lines.length

/-- The `toInsert` block: entries whose key never matched a section
line, in entry order, rendered as `` `${k} = ${v}` ``. -/
def toInsertOf (updates : List (List Char × List Char))
    (matched : List (List Char)) : List (List Char) :=
  (updates.filter fun kv => !(matched.contains kv.1)).map
    fun kv => mkKVLine kv.1 kv.2

/-- The lines strictly between `sectionStart` and `sectionEnd` — the
ones the rewrite loop visits. -/
def sectionBody (lines : List (List Char)) (header : List Char)
    (s : Nat) : List (List Char) :=
  (lines.drop (s + 1)).take (sectionEndIdx lines header s - (s + 1))

/-- The line list produced for an existing section found at index `s`:
prefix through the header, the rewritten section body, the insertion
block spliced at `sectionEnd`, then the rest. -/
def updateLinesAt (lines : List (List Char)) (header : List Char)
    (updates : List (List Char × List Char)) (s : Nat) :
    List (List Char) :=
  lines.take (s + 1)
    ++ ((sectionBody lines header s).map (rewriteLine updates)
      ++ (toInsertOf updates
            ((sectionBody lines header s).filterMap (matchedKey? updates))
        ++ lines.drop (sectionEndIdx lines header s)))

/-- `content.endsWith("\n")`. -/
def endsWithNL (cs : List Char) : Bool := cs.getLast? == some '\n'

/-- The absent-section branch: append
`["", header, ...entries].join("\n") + "\n"` after the original text,
inserting a newline first unless one is already there. -/
def appendNewSection (content : List Char) (header : List Char)
    (updates : List (List Char × List Char)) : List Char :=
  content ++ (if endsWithNL content then [] else ['\n'])
    ++ joinLF ([] :: header :: updates.map fun kv => mkKVLine kv.1 kv.2)
    ++ ['\n']

/-- `updateIniSection` on character lists. -/
def updateIniSectionL (content sect : List Char)
    (updates : List (List Char × List Char)) : List Char :=
  match sectionStartIdx? (splitRN content) (headerOf sect) with
  | none => appendNewSection content (headerOf sect) updates
  | some s =>
    joinLF (updateLinesAt (splitRN content) (headerOf sect) updates s)

/-- The entry list of the updates map on character lists. -/
def entryData (updates : List (String × String)) :
    List (List Char × List Char) :=
  updates.map fun kv => (kv.1.data, kv.2.data)

/-- `updateIniSection(content, section, updates)`; the updates map is
modelled as its entry list in `Object.entries` order (keys distinct). -/
def updateIniSection (content sect : String)
    (updates : List (String × String)) : String :=
  ⟨updateIniSectionL content.data sect.data (entryData updates)⟩

/-! ### Auxiliary notions used only to state the claims about
`updateIniSection` (not part of the translation) -/

/-- Every carriage return is immediately followed by a line feed
(CRLF-only line terminators, no stray `\r`). -/
def crWellFormed : List Char → Bool
  | [] => true
  | [c] => !(c == '\r')
  | c :: d :: rest =>
    if c = '\r' then (d == '\n') && crWellFormed rest
    else crWellFormed (d :: rest)

/-- A well-formed INI key for the idempotence statement: non-empty, no
`\s` characters, no `=`, and not starting with `[`. -/
def wfKey (k : List Char) : Bool :=
  !k.isEmpty && k.all (fun c => !isSpaceJS c && !(c == '='))
    && !(k.head? == some '[')

/-- A well-formed value: every character matchable by the regex `.`
(no LF, CR, LS, PS). -/
def wfVal (v : List Char) : Bool := v.all dotJS

/-! ## Concrete inputs used by the claims -/

/-- A two-element revision cycle `A→B→A` with the current revision
inside the cycle (claim C1). -/
def cycleMigs : List Migration :=
  [{ id := "a", shortId := "a", message := "m", isCurrent := true,
     isApplied := true, downRevision := some "b" },
   { id := "b", shortId := "b", message := "m", isCurrent := false,
     isApplied := true, downRevision := some "a" }]

/-- The linear chain `A(parent=None) ← B ← C` of claim C3, with the
current flags as arguments. -/
def chainMigs (ca cb cc : Bool) : List Migration :=
  [{ id := "a", shortId := "a", message := "m", isCurrent := ca,
     isApplied := true, downRevision := none },
   { id := "b", shortId := "b", message := "m", isCurrent := cb,
     isApplied := true, downRevision := some "a" },
   { id := "c", shortId := "c", message := "m", isCurrent := cc,
     isApplied := true, downRevision := some "b" }]

/-- A revision whose `downRevision` is present but empty — a legal value
of the TS type `string | undefined` (claim C5). -/
def emptyDownMig : Migration :=
  { id := "x", shortId := "x", message := "m", isCurrent := false,
    isApplied := false, downRevision := some "" }

/-- The history text of the end-to-end scenario of claim C2. -/
def c2History : String :=
  "None -> aaa111, init schema\naaa111 -> bbb222, add users"

/-- The single migration the code actually produces from `c2History`
(the `None -> aaa111` root line does not match the history regex,
because `N` and `o` are outside `[a-f0-9]`). -/
def c2Parsed : Migration :=
  { id := "bbb222", shortId := "bbb222", message := "add users",
    isCurrent := true, isApplied := true, downRevision := some "aaa111" }

end VMA

namespace VMA

/-! ## Split/join lemmas -/

theorem crlfToLf_cons_cons (c d : Char) (rest : List Char)
    (h : ¬(c = '\r' ∧ d = '\n')) :
    crlfToLf (c :: d :: rest) = c :: crlfToLf (d :: rest) := by
  simp [crlfToLf, h]

theorem crlfToLf_crlf (rest : List Char) :
    crlfToLf ('\r' :: '\n' :: rest) = '\n' :: crlfToLf rest := by
  simp [crlfToLf]

theorem crlfToLf_of_no_cr (cs : List Char) (h : '\r' ∉ cs) :
    crlfToLf cs = cs := by
  induction cs with
  | nil => rfl
  | cons c rest ih =>
    have hc : c ≠ '\r' := fun hh => h (hh ▸ List.mem_cons_self c rest)
    have hrest : '\r' ∉ rest := fun hh => h (List.mem_cons_of_mem c hh)
    rcases rest with _ | ⟨d, rest2⟩
    · rfl
    · rw [crlfToLf_cons_cons c d rest2 (fun hh => hc hh.1), ih hrest]

theorem crlfToLf_no_cr : ∀ cs : List Char, crWellFormed cs = true →
    '\r' ∉ crlfToLf cs
  | [] => by intro _ hm; simp [crlfToLf] at hm
  | [c] => by
    intro h hm
    rw [crWellFormed] at h
    simp only [crlfToLf, List.mem_singleton] at hm
    simp [← hm] at h
  | c :: d :: rest => by
    intro h hm
    by_cases hc : c = '\r'
    · subst hc
      have h' : d = '\n' ∧ crWellFormed rest = true := by
        simpa [crWellFormed] using h
      obtain ⟨rfl, hrest⟩ := h'
      rw [crlfToLf_crlf] at hm
      rcases List.mem_cons.mp hm with hh | hh
      · exact absurd hh (by decide)
      · exact crlfToLf_no_cr rest hrest hh
    · have h' : crWellFormed (d :: rest) = true := by
        simpa [crWellFormed, hc] using h
      rw [crlfToLf_cons_cons c d rest (fun hh => hc hh.1)] at hm
      rcases List.mem_cons.mp hm with hh | hh
      · exact hc hh.symm
      · exact crlfToLf_no_cr (d :: rest) h' hh

theorem splitLF_ne_nil (cs : List Char) : splitLF cs ≠ [] := by
  induction cs with
  | nil => simp [splitLF]
  | cons c rest ih =>
    by_cases h : c = '\n'
    · simp [splitLF, h]
    · rw [splitLF]
      simp only [if_neg h]
      rcases hr : splitLF rest with _ | ⟨l, ls⟩
      · exact absurd hr ih
      · simp

theorem splitLF_cons_lf (rest : List Char) :
    splitLF ('\n' :: rest) = [] :: splitLF rest := by
  simp [splitLF]

theorem splitLF_cons_ne (c : Char) (rest l : List Char)
    (ls : List (List Char)) (hc : ¬c = '\n') (h : splitLF rest = l :: ls) :
    splitLF (c :: rest) = (c :: l) :: ls := by
  rw [splitLF]
  simp [hc, h]

theorem splitLF_head_cons (cs : List Char) :
    ∃ l ls, splitLF cs = l :: ls := by
  rcases h : splitLF cs with _ | ⟨l, ls⟩
  · exact absurd h (splitLF_ne_nil cs)
  · exact ⟨l, ls, rfl⟩

theorem splitLF_append_lf : ∀ A B : List Char,
    splitLF (A ++ '\n' :: B) = splitLF A ++ splitLF B
  | [], B => by simp [splitLF]
  | c :: A', B => by
    by_cases hc : c = '\n'
    · subst hc
      show splitLF ('\n' :: (A' ++ '\n' :: B)) = _
      rw [splitLF_cons_lf, splitLF_cons_lf, splitLF_append_lf A' B]
      rfl
    · obtain ⟨l, ls, hA⟩ := splitLF_head_cons A'
      have h2 : splitLF (A' ++ '\n' :: B) = l :: (ls ++ splitLF B) := by
        rw [splitLF_append_lf A' B, hA]; rfl
      rw [show (c :: A') ++ '\n' :: B = c :: (A' ++ '\n' :: B) from rfl,
          splitLF_cons_ne c _ _ _ hc h2, splitLF_cons_ne c _ _ _ hc hA]
      rfl

theorem joinLF_cons_head (c : Char) (l : List Char)
    (ls : List (List Char)) :
    joinLF ((c :: l) :: ls) = c :: joinLF (l :: ls) := by
  rcases ls with _ | ⟨a, b⟩ <;> rfl

theorem joinLF_cons_cons (l l' : List Char) (ls : List (List Char)) :
    joinLF (l :: l' :: ls) = l ++ '\n' :: joinLF (l' :: ls) := rfl

theorem joinLF_splitLF : ∀ cs : List Char, joinLF (splitLF cs) = cs
  | [] => rfl
  | c :: rest => by
    by_cases hc : c = '\n'
    · subst hc
      rw [splitLF_cons_lf]
      obtain ⟨l, ls, h⟩ := splitLF_head_cons rest
      rw [h, show joinLF ([] :: l :: ls) = [] ++ '\n' :: joinLF (l :: ls)
          from rfl, ← h, joinLF_splitLF rest]
      rfl
    · obtain ⟨l, ls, h⟩ := splitLF_head_cons rest
      rw [splitLF_cons_ne c rest l ls hc h, joinLF_cons_head, ← h,
          joinLF_splitLF rest]

theorem splitLF_of_no_lf : ∀ l : List Char, '\n' ∉ l → splitLF l = [l]
  | [] => fun _ => rfl
  | c :: rest => fun h => by
    have hc : ¬c = '\n' := fun hh => h (hh ▸ List.mem_cons_self c rest)
    have hrest : '\n' ∉ rest := fun hh => h (List.mem_cons_of_mem c hh)
    rw [splitLF_cons_ne c rest rest [] hc (splitLF_of_no_lf rest hrest)]

theorem splitLF_joinLF : ∀ L : List (List Char), L ≠ [] →
    (∀ l ∈ L, '\n' ∉ l) → splitLF (joinLF L) = L
  | [], hne, _ => absurd rfl hne
  | [l], _, h => by
    show splitLF l = [l]
    exact splitLF_of_no_lf l (h l (List.mem_singleton_self l))
  | l :: l' :: ls, _, h => by
    rw [joinLF_cons_cons, splitLF_append_lf,
        splitLF_of_no_lf l (h l (List.mem_cons_self _ _)),
        splitLF_joinLF (l' :: ls) (by simp)
          (fun x hx => h x (List.mem_cons_of_mem _ hx))]
    rfl

theorem mem_splitLF_no_lf : ∀ (cs l : List Char), l ∈ splitLF cs →
    '\n' ∉ l
  | [], l, hm => by
    simp only [splitLF, List.mem_singleton] at hm
    subst hm; simp
  | c :: rest, l, hm => by
    by_cases hc : c = '\n'
    · subst hc
      rw [splitLF_cons_lf] at hm
      rcases List.mem_cons.mp hm with rfl | hh
      · simp
      · exact mem_splitLF_no_lf rest l hh
    · obtain ⟨l0, ls, h⟩ := splitLF_head_cons rest
      rw [splitLF_cons_ne c rest l0 ls hc h] at hm
      rcases List.mem_cons.mp hm with rfl | hh
      · intro hmem
        rcases List.mem_cons.mp hmem with hh | hh
        · exact hc hh.symm
        · exact mem_splitLF_no_lf rest l0 (h ▸ List.mem_cons_self _ _) hh
      · exact mem_splitLF_no_lf rest l (h ▸ List.mem_cons_of_mem _ hh)

theorem mem_splitLF_mem : ∀ (cs l : List Char), l ∈ splitLF cs →
    ∀ c ∈ l, c ∈ cs
  | [], l, hm => by
    simp only [splitLF, List.mem_singleton] at hm
    subst hm; simp
  | c :: rest, l, hm => by
    by_cases hc : c = '\n'
    · subst hc
      rw [splitLF_cons_lf] at hm
      rcases List.mem_cons.mp hm with rfl | hh
      · simp
      · exact fun x hx =>
          List.mem_cons_of_mem _ (mem_splitLF_mem rest l hh x hx)
    · obtain ⟨l0, ls, h⟩ := splitLF_head_cons rest
      rw [splitLF_cons_ne c rest l0 ls hc h] at hm
      rcases List.mem_cons.mp hm with rfl | hh
      · intro x hx
        rcases List.mem_cons.mp hx with rfl | hh
        · exact List.mem_cons_self _ _
        · exact List.mem_cons_of_mem _
            (mem_splitLF_mem rest l0 (h ▸ List.mem_cons_self _ _) x hh)
      · exact fun x hx => List.mem_cons_of_mem _
          (mem_splitLF_mem rest l (h ▸ List.mem_cons_of_mem _ hh) x hx)

/-! ## `firstIdx?` lemmas -/

theorem firstIdx?_eq_none_iff (p : α → Bool) : ∀ L : List α,
    firstIdx? p L = none ↔ ∀ l ∈ L, p l = false
  | [] => by simp [firstIdx?]
  | a :: L => by
    by_cases h : p a
    · simp [firstIdx?, h]
    · rw [show firstIdx? p (a :: L) = (firstIdx? p L).map (· + 1) by
        simp [firstIdx?, h]]
      constructor
      · intro hnone l hl
        have hL : firstIdx? p L = none := by
          rcases hm : firstIdx? p L with _ | m
          · rfl
          · rw [hm] at hnone; simp at hnone
        rcases List.mem_cons.mp hl with rfl | hl
        · exact Bool.eq_false_iff.mpr h
        · exact (firstIdx?_eq_none_iff p L).mp hL l hl
      · intro hall
        rw [(firstIdx?_eq_none_iff p L).mpr
          (fun l hl => hall l (List.mem_cons_of_mem a hl))]
        rfl

theorem firstIdx?_decomp (p : α → Bool) : ∀ (L : List α) (n : Nat),
    firstIdx? p L = some n →
    ∃ X y Z, L = X ++ y :: Z ∧ X.length = n ∧ p y = true ∧
      ∀ x ∈ X, p x = false
  | [], n => by intro hs; simp [firstIdx?] at hs
  | a :: L, n => by
    by_cases h : p a
    · intro hs
      simp only [firstIdx?, if_pos h, Option.some.injEq] at hs
      exact ⟨[], a, L, by simp, by simp [← hs], h, by simp⟩
    · intro hs
      simp only [firstIdx?, if_neg h] at hs
      rcases hm : firstIdx? p L with _ | m
      · rw [hm] at hs; simp at hs
      · rw [hm] at hs
        simp at hs
        obtain ⟨X, y, Z, hL, hlen, hy, hX⟩ := firstIdx?_decomp p L m hm
        refine ⟨a :: X, y, Z, by simp [hL], by simp [hlen]; omega, hy, ?_⟩
        intro x hx
        rcases List.mem_cons.mp hx with rfl | hx
        · exact Bool.eq_false_iff.mpr h
        · exact hX x hx

theorem firstIdx?_append_none (p : α → Bool) : ∀ (X Y : List α),
    (∀ x ∈ X, p x = false) →
    firstIdx? p (X ++ Y) = (firstIdx? p Y).map (· + X.length)
  | [], Y, _ => by
    rcases h : firstIdx? p Y with _ | n <;> simp [h]
  | a :: X, Y, hX => by
    have ha : p a = false := hX a (List.mem_cons_self a X)
    have hX' : ∀ x ∈ X, p x = false :=
      fun x hx => hX x (List.mem_cons_of_mem a hx)
    show firstIdx? p (a :: (X ++ Y)) = _
    simp only [firstIdx?, ha, if_neg (by simp [ha] : ¬(p a = true))]
    rw [firstIdx?_append_none p X Y hX']
    rcases firstIdx? p Y with _ | n <;> simp
    omega

theorem firstIdx?_append_cons_true (p : α → Bool) (X : List α) (y : α)
    (Z : List α) (hX : ∀ x ∈ X, p x = false) (hy : p y = true) :
    firstIdx? p (X ++ y :: Z) = some X.length := by
  rw [firstIdx?_append_none p X (y :: Z) hX]
  simp [firstIdx?, hy]

/-! ## Trim lemmas -/

theorem dropWhile_append_last (p : Char → Bool) :
    ∀ (X : List Char) (c : Char), p c = false →
      List.dropWhile p (X ++ [c]) = List.dropWhile p X ++ [c]
  | [], c, h => by simp [List.dropWhile, h]
  | a :: X, c, h => by
    by_cases ha : p a
    · simp only [List.cons_append, List.dropWhile_cons, ha, if_true]
      exact dropWhile_append_last p X c h
    · simp [List.dropWhile_cons, ha]

theorem trimList_cons_not_ws (c : Char) (rest : List Char)
    (h : isSpaceJS c = false) :
    trimList (c :: rest)
      = c :: (List.dropWhile isSpaceJS rest.reverse).reverse := by
  unfold trimList
  rw [List.dropWhile_cons, if_neg (by simp [h])]
  rw [show (c :: rest).reverse = rest.reverse ++ [c] by simp,
      dropWhile_append_last isSpaceJS rest.reverse c h]
  simp

theorem trimList_nil : trimList [] = [] := rfl

theorem trimList_headerOf (sect : List Char) :
    trimList (headerOf sect) = headerOf sect := by
  rw [headerOf, trimList_cons_not_ws _ _ (by decide)]
  rw [show (sect ++ [']']).reverse = ']' :: sect.reverse by simp,
      List.dropWhile_cons, if_neg (by decide)]
  simp

/-! ## Key regex lemmas -/

theorem wsSplits_not_ws (c : Char) (rest : List Char)
    (h : isSpaceJS c = false) : wsSplits (c :: rest) = [c :: rest] := by
  simp [wsSplits, h]

theorem wfKey_shape (k : List Char) (h : wfKey k = true) :
    ∃ kc kt, k = kc :: kt := by
  rcases k with _ | ⟨kc, kt⟩
  · simp [wfKey] at h
  · exact ⟨kc, kt, rfl⟩

theorem wfKey_mem (k : List Char) (h : wfKey k = true) (c : Char)
    (hc : c ∈ k) : isSpaceJS c = false ∧ ¬c = '=' := by
  have h2 := (Bool.and_eq_true _ _).mp ((Bool.and_eq_true _ _).mp h).1 |>.2
  have := List.all_eq_true.mp h2 c hc
  simp only [Bool.and_eq_true, Bool.not_eq_true'] at this
  exact ⟨this.1, by simpa using this.2⟩

theorem wfKey_head (k : List Char) (h : wfKey k = true) :
    ¬k.head? = some '[' := by
  have h2 := ((Bool.and_eq_true _ _).mp h).2
  simp only [Bool.not_eq_true'] at h2
  simpa using h2

theorem mkKVLine_cons (kc : Char) (kt v : List Char) :
    mkKVLine (kc :: kt) v = kc :: (kt ++ ' ' :: '=' :: ' ' :: v) := rfl

theorem keyLineTest_mkKV_self (k v : List Char) (hk : wfKey k = true)
    (hv : wfVal v = true) : keyLineTest k (mkKVLine k v) = true := by
  obtain ⟨kc, kt, rfl⟩ := wfKey_shape k hk
  have hkc : isSpaceJS kc = false :=
    (wfKey_mem _ hk kc (List.mem_cons_self _ _)).1
  rw [keyLineTest, mkKVLine_cons, wsSplits_not_ws kc _ hkc]
  simp only [List.any_cons, List.any_nil, Bool.or_false, Bool.and_eq_true]
  constructor
  · rw [List.isPrefixOf_iff_prefix, ← mkKVLine_cons]
    exact List.prefix_append _ _
  · rw [← mkKVLine_cons,
        show mkKVLine (kc :: kt) v
          = (kc :: kt) ++ ' ' :: '=' :: ' ' :: v from rfl,
        List.drop_left]
    rw [show wsSplits (' ' :: '=' :: ' ' :: v)
        = (' ' :: '=' :: ' ' :: v) :: wsSplits ('=' :: ' ' :: v) by
          simp [wsSplits, show isSpaceJS ' ' = true from by decide],
        wsSplits_not_ws '=' _ (by decide)]
    simp only [List.any_cons, List.any_nil, Bool.or_false]
    refine (Bool.or_eq_true _ _).mpr (Or.inr ?_)
    rw [eqTailTest]
    have hv' : v.all dotJS = true := hv
    simp [List.all_cons, hv', show dotJS ' ' = true from by decide]

theorem keyLineTest_mkKV_only (k k' v : List Char) (hk : wfKey k = true)
    (hk' : wfKey k' = true)
    (h : keyLineTest k' (mkKVLine k v) = true) : k' = k := by
  obtain ⟨kc, kt, rfl⟩ := wfKey_shape k hk
  have hkc : isSpaceJS kc = false :=
    (wfKey_mem _ hk kc (List.mem_cons_self _ _)).1
  rw [keyLineTest, mkKVLine_cons, wsSplits_not_ws kc _ hkc] at h
  simp only [List.any_cons, List.any_nil, Bool.or_false,
    Bool.and_eq_true] at h
  obtain ⟨hpre, hrest⟩ := h
  rw [← mkKVLine_cons] at hpre hrest
  have hline : mkKVLine (kc :: kt) v
      = (kc :: kt) ++ ' ' :: '=' :: ' ' :: v := rfl
  have hpre' : k' <+: ((kc :: kt) ++ ' ' :: '=' :: ' ' :: v) := by
    rw [← hline]; exact List.isPrefixOf_iff_prefix.mp hpre
  have hk2 : (kc :: kt) <+: ((kc :: kt) ++ ' ' :: '=' :: ' ' :: v) :=
    List.prefix_append _ _
  rcases List.prefix_or_prefix_of_prefix hpre' hk2 with hcase | hcase
  · -- k' is a prefix of k
    obtain ⟨t, ht⟩ := hcase
    rcases t with _ | ⟨d, t'⟩
    · rw [List.append_nil] at ht; exact ht
    · exfalso
      -- the character right after k' inside k is non-ws and non-=,
      -- so the `\s*=` part of the regex cannot match
      have hd : d ∈ kc :: kt := by
        rw [← ht]; exact List.mem_append_right _ (List.mem_cons_self _ _)
      obtain ⟨hdws, hdeq⟩ := wfKey_mem _ hk d hd
      have hdrop : (mkKVLine (kc :: kt) v).drop k'.length
          = d :: (t' ++ ' ' :: '=' :: ' ' :: v) := by
        rw [hline, ← ht, List.append_assoc, List.cons_append,
            List.drop_left]
      rw [hdrop, wsSplits_not_ws d _ hdws] at hrest
      simp only [List.any_cons, List.any_nil, Bool.or_false] at hrest
      rw [eqTailTest] at hrest
      simp only [Bool.and_eq_true, beq_iff_eq] at hrest
      exact hdeq hrest.1
  · -- k is a prefix of k'
    obtain ⟨t, ht⟩ := hcase
    rcases t with _ | ⟨d, t'⟩
    · rw [List.append_nil] at ht; exact ht.symm
    · exfalso
      -- k' would have to contain the space right after the key
      obtain ⟨r, hr⟩ := hpre'
      rw [← ht, List.append_assoc] at hr
      have hx := List.append_cancel_left hr
      have hd : d = ' ' := by
        have := congrArg List.head? hx
        simpa using this
      have : d ∈ k' := by
        rw [← ht]; exact List.mem_append_right _ (List.mem_cons_self _ _)
      have := (wfKey_mem _ hk' d this).1
      rw [hd] at this
      exact absurd this (by decide)

theorem keyLineTest_nil_line (k : List Char) (hk : wfKey k = true) :
    keyLineTest k [] = false := by
  obtain ⟨kc, kt, rfl⟩ := wfKey_shape k hk
  rw [keyLineTest]
  simp [wsSplits, List.isPrefixOf]

theorem find?_keyLineTest_mkKV :
    ∀ (u : List (List Char × List Char)) (k v : List Char),
      (k, v) ∈ u → (u.map Prod.fst).Nodup →
      (∀ kv ∈ u, wfKey kv.1 = true) → wfVal v = true →
      u.find? (fun kv => keyLineTest kv.1 (mkKVLine k v)) = some (k, v)
  | [], k, v => by intro hmem _ _ _; simp at hmem
  | hd :: tl, k, v => by
    intro hmem hnd hwf hv
    rcases List.mem_cons.mp hmem with heq | hmem'
    · subst heq
      exact List.find?_cons_of_pos _
        (keyLineTest_mkKV_self k v (hwf (k, v) (List.mem_cons_self _ _)) hv)
    · by_cases hkey : hd.1 = k
      · exfalso
        have hker : k ∈ tl.map Prod.fst := by
          exact List.mem_map_of_mem Prod.fst hmem'
        rw [List.map_cons] at hnd
        exact (List.nodup_cons.mp hnd).1 (hkey ▸ hker)
      · rw [List.find?_cons_of_neg]
        · exact find?_keyLineTest_mkKV tl k v hmem'
            (List.nodup_cons.mp (List.map_cons _ hd tl ▸ hnd)).2
            (fun kv hkv => hwf kv (List.mem_cons_of_mem hd hkv)) hv
        · intro hcon
          exact hkey (keyLineTest_mkKV_only k hd.1 v
            (hwf (k, v) (List.mem_cons_of_mem hd hmem'))
            (hwf hd (List.mem_cons_self _ _)) hcon)

theorem rewriteLine_mkKV (u : List (List Char × List Char))
    (k v : List Char) (hmem : (k, v) ∈ u)
    (hnd : (u.map Prod.fst).Nodup)
    (hwf : ∀ kv ∈ u, wfKey kv.1 = true) (hv : wfVal v = true) :
    rewriteLine u (mkKVLine k v) = mkKVLine k v := by
  rw [rewriteLine, find?_keyLineTest_mkKV u k v hmem hnd hwf hv]

theorem matchedKey?_mkKV (u : List (List Char × List Char))
    (k v : List Char) (hmem : (k, v) ∈ u)
    (hnd : (u.map Prod.fst).Nodup)
    (hwf : ∀ kv ∈ u, wfKey kv.1 = true) (hv : wfVal v = true) :
    matchedKey? u (mkKVLine k v) = some k := by
  simp only [matchedKey?, find?_keyLineTest_mkKV u k v hmem hnd hwf hv]
  rfl

theorem rewriteLine_of_find?_none (u : List (List Char × List Char))
    (l : List Char)
    (h : u.find? (fun kv => keyLineTest kv.1 l) = none) :
    rewriteLine u l = l := by
  simp only [rewriteLine, h]

theorem matchedKey?_rewriteLine (u : List (List Char × List Char))
    (hnd : (u.map Prod.fst).Nodup)
    (hwf : ∀ kv ∈ u, wfKey kv.1 = true)
    (hwv : ∀ kv ∈ u, wfVal kv.2 = true) (l : List Char) :
    matchedKey? u (rewriteLine u l) = matchedKey? u l := by
  rcases h : u.find? (fun kv => keyLineTest kv.1 l) with _ | kv
  · rw [rewriteLine_of_find?_none u l h]
  · have hmem := List.mem_of_find?_eq_some h
    have h1 : rewriteLine u l = mkKVLine kv.1 kv.2 := by
      simp only [rewriteLine, h]
    rw [h1, matchedKey?_mkKV u kv.1 kv.2 hmem hnd hwf (hwv kv hmem)]
    simp only [matchedKey?, h]
    rfl

theorem rewriteLine_idem (u : List (List Char × List Char))
    (hnd : (u.map Prod.fst).Nodup)
    (hwf : ∀ kv ∈ u, wfKey kv.1 = true)
    (hwv : ∀ kv ∈ u, wfVal kv.2 = true) (l : List Char) :
    rewriteLine u (rewriteLine u l) = rewriteLine u l := by
  rcases h : u.find? (fun kv => keyLineTest kv.1 l) with _ | kv
  · have h0 := rewriteLine_of_find?_none u l h
    rw [h0]
    exact h0
  · have hmem := List.mem_of_find?_eq_some h
    have h1 : rewriteLine u l = mkKVLine kv.1 kv.2 := by
      simp only [rewriteLine, h]
    rw [h1, rewriteLine_mkKV u kv.1 kv.2 hmem hnd hwf (hwv kv hmem)]

theorem mkKV_no_lf (k v : List Char) (hk : wfKey k = true)
    (hv : wfVal v = true) : '\n' ∉ mkKVLine k v := by
  intro hm
  rcases List.mem_append.mp hm with h | h
  · exact absurd (wfKey_mem k hk _ h).1 (by decide)
  · rcases List.mem_cons.mp h with hh | h
    · exact absurd hh (by decide)
    rcases List.mem_cons.mp h with hh | h
    · exact absurd hh (by decide)
    rcases List.mem_cons.mp h with hh | h
    · exact absurd hh (by decide)
    · have : dotJS '\n' = true := List.all_eq_true.mp hv _ h
      exact absurd this (by decide)

theorem mkKV_no_cr (k v : List Char) (hk : wfKey k = true)
    (hv : wfVal v = true) : '\r' ∉ mkKVLine k v := by
  intro hm
  rcases List.mem_append.mp hm with h | h
  · exact absurd (wfKey_mem k hk _ h).1 (by decide)
  · rcases List.mem_cons.mp h with hh | h
    · exact absurd hh (by decide)
    rcases List.mem_cons.mp h with hh | h
    · exact absurd hh (by decide)
    rcases List.mem_cons.mp h with hh | h
    · exact absurd hh (by decide)
    · have : dotJS '\r' = true := List.all_eq_true.mp hv _ h
      exact absurd this (by decide)

theorem bracketStart_trim_mkKV (k v : List Char) (hk : wfKey k = true) :
    bracketStart (trimList (mkKVLine k v)) = false := by
  obtain ⟨kc, kt, rfl⟩ := wfKey_shape k hk
  have hkc : isSpaceJS kc = false :=
    (wfKey_mem _ hk kc (List.mem_cons_self _ _)).1
  have hkb : ¬kc = '[' := by
    intro hh; exact wfKey_head _ hk (by simp [hh])
  rw [mkKVLine_cons, trimList_cons_not_ws _ _ hkc, bracketStart]
  simp [hkb]

theorem isHeaderLine_mkKV (sect k v : List Char) (hk : wfKey k = true) :
    isHeaderLine (headerOf sect) (mkKVLine k v) = false := by
  obtain ⟨kc, kt, rfl⟩ := wfKey_shape k hk
  have hkc : isSpaceJS kc = false :=
    (wfKey_mem _ hk kc (List.mem_cons_self _ _)).1
  have hkb : ¬kc = '[' := by
    intro hh; exact wfKey_head _ hk (by simp [hh])
  rw [isHeaderLine, mkKVLine_cons, trimList_cons_not_ws _ _ hkc, headerOf]
  rw [beq_eq_false_iff_ne]
  intro hcon
  exact hkb (List.head_eq_of_cons_eq hcon)

theorem endsSection_mkKV (sect k v : List Char) (hk : wfKey k = true) :
    endsSection (headerOf sect) (mkKVLine k v) = false := by
  rw [endsSection, bracketStart_trim_mkKV k v hk]
  rfl

theorem isHeaderLine_nil (sect : List Char) :
    isHeaderLine (headerOf sect) [] = false := rfl

theorem endsSection_nil (header : List Char) :
    endsSection header [] = false := rfl

theorem find?_nil_line (u : List (List Char × List Char))
    (hwf : ∀ kv ∈ u, wfKey kv.1 = true) :
    u.find? (fun kv => keyLineTest kv.1 []) = none := by
  rw [List.find?_eq_none]
  intro kv hkv
  simp [keyLineTest_nil_line kv.1 (hwf kv hkv)]

/-! ## Section-scan lemmas -/

theorem sectionStartIdx?_lt (lines : List (List Char)) (header : List Char)
    (s : Nat) (hs : sectionStartIdx? lines header = some s) :
    s < lines.length := by
  obtain ⟨X, y, Z, hdec, hlen, _, _⟩ :=
    firstIdx?_decomp (isHeaderLine header) lines s hs
  rw [hdec, List.length_append, List.length_cons, ← hlen]
  omega

theorem sectionEndIdx_none (lines : List (List Char)) (header : List Char)
    (s : Nat) (h : firstIdx? (endsSection header) (lines.drop (s + 1)) = none) :
    sectionEndIdx lines header s = lines.length := by
  rw [sectionEndIdx, h]

theorem sectionEndIdx_some (lines : List (List Char)) (header : List Char)
    (s k : Nat)
    (h : firstIdx? (endsSection header) (lines.drop (s + 1)) = some k) :
    sectionEndIdx lines header s = s + 1 + k := by
  rw [sectionEndIdx, h]

theorem sectionEndIdx_bounds (lines : List (List Char))
    (header : List Char) (s : Nat) (hs : s < lines.length) :
    s + 1 ≤ sectionEndIdx lines header s
      ∧ sectionEndIdx lines header s ≤ lines.length := by
  rcases h : firstIdx? (endsSection header) (lines.drop (s + 1)) with _ | k
  · rw [sectionEndIdx_none lines header s h]
    exact ⟨by omega, Nat.le_refl _⟩
  · rw [sectionEndIdx_some lines header s k h]
    obtain ⟨X, y, Z, hdec, hlen, _, _⟩ :=
      firstIdx?_decomp (endsSection header) (lines.drop (s + 1)) k h
    have hk : k < (lines.drop (s + 1)).length := by
      rw [hdec, List.length_append, List.length_cons, hlen]
      omega
    rw [List.length_drop] at hk
    exact ⟨by omega, by omega⟩

theorem sectionBody_length (lines : List (List Char)) (header : List Char)
    (s : Nat) (hs : s < lines.length) :
    (sectionBody lines header s).length
      = sectionEndIdx lines header s - (s + 1) := by
  rw [sectionBody, List.length_take, List.length_drop]
  have := sectionEndIdx_bounds lines header s hs
  omega

theorem sectionBody_not_endsSection (lines : List (List Char))
    (header : List Char) (s : Nat) (l : List Char)
    (hl : l ∈ sectionBody lines header s) : endsSection header l = false := by
  rcases h : firstIdx? (endsSection header) (lines.drop (s + 1)) with _ | k
  · exact (firstIdx?_eq_none_iff (endsSection header) _).mp h l
      (List.mem_of_mem_take hl)
  · rw [sectionBody, sectionEndIdx_some lines header s k h] at hl
    have hk : s + 1 + k - (s + 1) = k := by omega
    rw [hk] at hl
    obtain ⟨X, y, Z, hdec, hlen, _, hX⟩ :=
      firstIdx?_decomp (endsSection header) (lines.drop (s + 1)) k h
    rw [hdec, ← hlen, List.take_left] at hl
    exact hX l hl

theorem sectionEndIdx_endsSection (lines : List (List Char))
    (header : List Char) (s : Nat)
    (he : sectionEndIdx lines header s < lines.length) :
    ∃ l, lines[sectionEndIdx lines header s]? = some l
      ∧ endsSection header l = true := by
  rcases h : firstIdx? (endsSection header) (lines.drop (s + 1)) with _ | k
  · rw [sectionEndIdx_none lines header s h] at he
    omega
  · rw [sectionEndIdx_some lines header s k h] at he ⊢
    obtain ⟨X, y, Z, hdec, hlen, hy, _⟩ :=
      firstIdx?_decomp (endsSection header) (lines.drop (s + 1)) k h
    refine ⟨y, ?_, hy⟩
    have h0 : lines[s + 1 + k]? = (lines.drop (s + 1))[k]? := by
      rw [List.getElem?_drop]
    rw [h0, hdec, ← hlen, List.getElem?_append, if_neg (by omega),
        Nat.sub_self]
    simp

/-! ## Frame lemmas for `updateLinesAt` -/

theorem updateLinesAt_getElem?_le (lines : List (List Char))
    (header : List Char) (u : List (List Char × List Char)) (s : Nat)
    (hs : s < lines.length) (i : Nat) (hi : i ≤ s) :
    (updateLinesAt lines header u s)[i]? = lines[i]? := by
  rw [updateLinesAt, List.getElem?_append,
      if_pos (by rw [List.length_take]; omega)]
  exact List.getElem?_take_of_lt (by omega)

theorem updateLinesAt_getElem?_body (lines : List (List Char))
    (header : List Char) (u : List (List Char × List Char)) (s : Nat)
    (hs : s < lines.length) (i : Nat) (h1 : s < i)
    (h2 : i < sectionEndIdx lines header s)
    (hm : matchedKey? u ((lines[i]?).getD []) = none) :
    (updateLinesAt lines header u s)[i]? = lines[i]? := by
  have hb := sectionEndIdx_bounds lines header s hs
  have hblen := sectionBody_length lines header s hs
  rw [updateLinesAt, List.getElem?_append,
      if_neg (by rw [List.length_take]; omega),
      List.getElem?_append,
      if_pos (by rw [List.length_map, hblen, List.length_take]; omega)]
  rw [List.getElem?_map]
  have hidx : (sectionBody lines header s)[i - (lines.take (s + 1)).length]?
      = lines[i]? := by
    rw [sectionBody, List.getElem?_take_of_lt
        (by rw [List.length_take]; omega),
        List.getElem?_drop]
    congr 1
    rw [List.length_take]
    omega
  rw [hidx]
  obtain ⟨l, hl⟩ : ∃ l, lines[i]? = some l := by
    rw [List.getElem?_eq_getElem (by omega)]
    exact ⟨_, rfl⟩
  rw [hl]
  rw [hl] at hm
  simp only [Option.getD_some] at hm
  have hfind : u.find? (fun kv => keyLineTest kv.1 l) = none := by
    rcases hf : u.find? (fun kv => keyLineTest kv.1 l) with _ | kv
    · exact hf
    · rw [matchedKey?, hf] at hm; simp at hm
  simp [rewriteLine_of_find?_none u l hfind]

theorem updateLinesAt_getElem?_after (lines : List (List Char))
    (header : List Char) (u : List (List Char × List Char)) (s : Nat)
    (hs : s < lines.length) (i : Nat)
    (h1 : sectionEndIdx lines header s ≤ i) (_h2 : i < lines.length) :
    (updateLinesAt lines header u s)[i
        + (toInsertOf u
            ((sectionBody lines header s).filterMap (matchedKey? u))).length]?
      = lines[i]? := by
  have hb := sectionEndIdx_bounds lines header s hs
  have hblen := sectionBody_length lines header s hs
  rw [updateLinesAt, List.getElem?_append,
      if_neg (by rw [List.length_take]; omega),
      List.getElem?_append,
      if_neg (by rw [List.length_map, hblen, List.length_take]; omega),
      List.getElem?_append, if_neg (by
        rw [List.length_map, hblen, List.length_take]
        omega)]
  rw [List.getElem?_drop]
  congr 1
  rw [List.length_map, hblen, List.length_take]
  omega

/-! ## Branch lemmas for `updateIniSectionL` -/

theorem updateIniSectionL_found (content sect : List Char)
    (u : List (List Char × List Char)) (s : Nat)
    (h : sectionStartIdx? (splitRN content) (headerOf sect) = some s) :
    updateIniSectionL content sect u
      = joinLF (updateLinesAt (splitRN content) (headerOf sect) u s) := by
  unfold updateIniSectionL
  rw [h]

theorem updateIniSectionL_absent (content sect : List Char)
    (u : List (List Char × List Char))
    (h : sectionStartIdx? (splitRN content) (headerOf sect) = none) :
    updateIniSectionL content sect u
      = appendNewSection content (headerOf sect) u := by
  unfold updateIniSectionL
  rw [h]

theorem splitRN_crlfToLf (cs : List Char) (h : crWellFormed cs = true) :
    splitRN (crlfToLf cs) = splitRN cs := by
  rw [splitRN, splitRN, crlfToLf_of_no_cr _ (crlfToLf_no_cr cs h)]

/-! ## Auxiliary lemmas for the idempotence argument -/

theorem splitRN_of_no_cr (cs : List Char) (h : '\r' ∉ cs) :
    splitRN cs = splitLF cs := by
  rw [splitRN, crlfToLf_of_no_cr cs h]

theorem joinLF_mem : ∀ (L : List (List Char)) (c : Char), c ∈ joinLF L →
    c = '\n' ∨ ∃ l ∈ L, c ∈ l
  | [], c, hc => by simp [joinLF] at hc
  | [l], c, hc => Or.inr ⟨l, List.mem_singleton_self l, hc⟩
  | l :: l' :: ls, c, hc => by
    rw [joinLF_cons_cons] at hc
    rcases List.mem_append.mp hc with h | h
    · exact Or.inr ⟨l, List.mem_cons_self _ _, h⟩
    · rcases List.mem_cons.mp h with rfl | h
      · exact Or.inl rfl
      · rcases joinLF_mem (l' :: ls) c h with h | ⟨x, hx, hcx⟩
        · exact Or.inl h
        · exact Or.inr ⟨x, List.mem_cons_of_mem _ hx, hcx⟩

theorem mem_toInsertOf (u : List (List Char × List Char))
    (matched : List (List Char)) (l : List Char)
    (hl : l ∈ toInsertOf u matched) :
    ∃ kv ∈ u, l = mkKVLine kv.1 kv.2 := by
  rw [toInsertOf] at hl
  obtain ⟨kv, hkv, rfl⟩ := List.mem_map.mp hl
  exact ⟨kv, List.mem_of_mem_filter hkv, rfl⟩

theorem mem_updateLinesAt (lines : List (List Char)) (header : List Char)
    (u : List (List Char × List Char)) (s : Nat) (l : List Char)
    (hl : l ∈ updateLinesAt lines header u s) :
    l ∈ lines ∨ ∃ kv ∈ u, l = mkKVLine kv.1 kv.2 := by
  rw [updateLinesAt] at hl
  rcases List.mem_append.mp hl with h | h
  · exact Or.inl (List.mem_of_mem_take h)
  rcases List.mem_append.mp h with h | h
  · obtain ⟨b, hb, rfl⟩ := List.mem_map.mp h
    rcases hf : u.find? (fun kv => keyLineTest kv.1 b) with _ | kv
    · rw [rewriteLine_of_find?_none u b hf]
      exact Or.inl (List.mem_of_mem_drop (List.mem_of_mem_take hb))
    · have : rewriteLine u b = mkKVLine kv.1 kv.2 := by
        simp only [rewriteLine, hf]
      rw [this]
      exact Or.inr ⟨kv, List.mem_of_find?_eq_some hf, rfl⟩
  rcases List.mem_append.mp h with h | h
  · exact Or.inr (mem_toInsertOf u _ l h)
  · exact Or.inl (List.mem_of_mem_drop h)

theorem isHeaderLine_headerOf_self (sect : List Char) :
    isHeaderLine (headerOf sect) (headerOf sect) = true := by
  rw [isHeaderLine, trimList_headerOf]
  exact beq_self_eq_true _

theorem headerOf_no_lf (sect : List Char)
    (hsect : ∀ c ∈ sect, ¬c = '\n' ∧ ¬c = '\r') :
    '\n' ∉ headerOf sect := by
  intro hm
  rcases List.mem_cons.mp hm with hh | hh
  · exact absurd hh (by decide)
  rcases List.mem_append.mp hh with hh | hh
  · exact (hsect _ hh).1 rfl
  · rcases List.mem_singleton.mp hh with hh
    exact absurd hh (by decide)

theorem headerOf_no_cr (sect : List Char)
    (hsect : ∀ c ∈ sect, ¬c = '\n' ∧ ¬c = '\r') :
    '\r' ∉ headerOf sect := by
  intro hm
  rcases List.mem_cons.mp hm with hh | hh
  · exact absurd hh (by decide)
  rcases List.mem_append.mp hh with hh | hh
  · exact (hsect _ hh).2 rfl
  · rcases List.mem_singleton.mp hh with hh
    exact absurd hh (by decide)

theorem splitRN_joinLF_clean (NL : List (List Char)) (hne : NL ≠ [])
    (hlf : ∀ l ∈ NL, '\n' ∉ l) (hcr : ∀ l ∈ NL, '\r' ∉ l) :
    splitRN (joinLF NL) = NL := by
  have hjcr : '\r' ∉ joinLF NL := by
    intro hm
    rcases joinLF_mem NL '\r' hm with h | ⟨l, hl, hcl⟩
    · exact absurd h (by decide)
    · exact hcr l hl hcl
  rw [splitRN_of_no_cr _ hjcr, splitLF_joinLF NL hne hlf]

/-! ## Stability of a second application (existing section) -/

theorem filterMap_some_fst (l : List (List Char × List Char)) :
    l.filterMap (fun kv => some kv.1) = l.map Prod.fst := by
  induction l with
  | nil => rfl
  | cons a l ih => simp [List.filterMap_cons, ih]


theorem updateLinesAt_stable (lines : List (List Char)) (sect : List Char)
    (u : List (List Char × List Char)) (s : Nat)
    (hnd : (u.map Prod.fst).Nodup)
    (hwfk : ∀ kv ∈ u, wfKey kv.1 = true)
    (hwfv : ∀ kv ∈ u, wfVal kv.2 = true)
    (hs : firstIdx? (isHeaderLine (headerOf sect)) lines = some s) :
    firstIdx? (isHeaderLine (headerOf sect))
        (updateLinesAt lines (headerOf sect) u s) = some s
      ∧ updateLinesAt (updateLinesAt lines (headerOf sect) u s)
          (headerOf sect) u s
        = updateLinesAt lines (headerOf sect) u s := by
  have hlt : s < lines.length := sectionStartIdx?_lt lines (headerOf sect) s hs
  obtain ⟨X, hl, Z, hdec, hXlen, hhl, hX⟩ :=
    firstIdx?_decomp (isHeaderLine (headerOf sect)) lines s hs
  have htake : lines.take (s + 1) = X ++ [hl] := by
    rw [hdec, ← hXlen, show X.length + 1 = X.length + 1 from rfl,
        List.take_append 1]
    rfl
  obtain ⟨hbound1, hbound2⟩ := sectionEndIdx_bounds lines (headerOf sect) s hlt
  have hlenP : (lines.take (s + 1)).length = s + 1 := by
    rw [List.length_take]; omega
  have hlenB :
      ((sectionBody lines (headerOf sect) s).map (rewriteLine u)).length
        = sectionEndIdx lines (headerOf sect) s - (s + 1) := by
    rw [List.length_map, sectionBody_length lines (headerOf sect) s hlt]
  have hNL : updateLinesAt lines (headerOf sect) u s
      = lines.take (s + 1)
        ++ ((sectionBody lines (headerOf sect) s).map (rewriteLine u)
          ++ (toInsertOf u
                ((sectionBody lines (headerOf sect) s).filterMap
                  (matchedKey? u))
            ++ lines.drop (sectionEndIdx lines (headerOf sect) s))) := rfl
  -- rewritten body lines never terminate the section scan
  have hB'e : ∀ b ∈ (sectionBody lines (headerOf sect) s).map
      (rewriteLine u), endsSection (headerOf sect) b = false := by
    intro b hb
    obtain ⟨b0, hb0, rfl⟩ := List.mem_map.mp hb
    rcases hf : u.find? (fun kv => keyLineTest kv.1 b0) with _ | kv
    · rw [rewriteLine_of_find?_none u b0 hf]
      exact sectionBody_not_endsSection lines (headerOf sect) s b0 hb0
    · have hrw : rewriteLine u b0 = mkKVLine kv.1 kv.2 := by
        simp only [rewriteLine, hf]
      rw [hrw]
      exact endsSection_mkKV sect kv.1 kv.2
        (hwfk kv (List.mem_of_find?_eq_some hf))
  have hIe : ∀ b ∈ toInsertOf u
      ((sectionBody lines (headerOf sect) s).filterMap (matchedKey? u)),
      endsSection (headerOf sect) b = false := by
    intro b hb
    obtain ⟨kv, hkv, rfl⟩ := mem_toInsertOf u _ b hb
    exact endsSection_mkKV sect kv.1 kv.2 (hwfk kv hkv)
  have hdropNL : (updateLinesAt lines (headerOf sect) u s).drop (s + 1)
      = (sectionBody lines (headerOf sect) s).map (rewriteLine u)
        ++ (toInsertOf u
              ((sectionBody lines (headerOf sect) s).filterMap
                (matchedKey? u))
          ++ lines.drop (sectionEndIdx lines (headerOf sect) s)) := by
    rw [hNL, List.drop_left' hlenP]
  -- the section of the rewritten list ends exactly after the insertion
  have heNL : sectionEndIdx (updateLinesAt lines (headerOf sect) u s)
      (headerOf sect) s
      = sectionEndIdx lines (headerOf sect) s
        + (toInsertOf u
            ((sectionBody lines (headerOf sect) s).filterMap
              (matchedKey? u))).length := by
    by_cases hcase :
        sectionEndIdx lines (headerOf sect) s < lines.length
    · obtain ⟨y, hy, hye⟩ :=
        sectionEndIdx_endsSection lines (headerOf sect) s hcase
      have hSfirst : lines.drop (sectionEndIdx lines (headerOf sect) s)
          = y :: lines.drop (sectionEndIdx lines (headerOf sect) s + 1) := by
        rw [List.drop_eq_getElem_cons hcase]
        rw [List.getElem?_eq_getElem hcase] at hy
        simp only [Option.some.injEq] at hy
        rw [hy]
      have hfi : firstIdx? (endsSection (headerOf sect))
          ((updateLinesAt lines (headerOf sect) u s).drop (s + 1))
          = some (((sectionBody lines (headerOf sect) s).map
              (rewriteLine u)).length
            + (toInsertOf u
                ((sectionBody lines (headerOf sect) s).filterMap
                  (matchedKey? u))).length) := by
        rw [hdropNL, hSfirst, show
          (sectionBody lines (headerOf sect) s).map (rewriteLine u)
            ++ (toInsertOf u
                  ((sectionBody lines (headerOf sect) s).filterMap
                    (matchedKey? u))
              ++ y :: lines.drop
                  (sectionEndIdx lines (headerOf sect) s + 1))
          = ((sectionBody lines (headerOf sect) s).map (rewriteLine u)
              ++ toInsertOf u
                  ((sectionBody lines (headerOf sect) s).filterMap
                    (matchedKey? u)))
            ++ y :: lines.drop
                (sectionEndIdx lines (headerOf sect) s + 1) by
          rw [List.append_assoc]]
        rw [firstIdx?_append_cons_true _ _ y _ (by
            intro x hx
            rcases List.mem_append.mp hx with hx | hx
            · exact hB'e x hx
            · exact hIe x hx) hye]
        rw [List.length_append]
      rw [sectionEndIdx_some _ _ _ _ hfi, hlenB]
      omega
    · have he : sectionEndIdx lines (headerOf sect) s = lines.length := by
        omega
      have hSnil : lines.drop (sectionEndIdx lines (headerOf sect) s)
          = [] := by
        rw [he, List.drop_length]
      have hfi : firstIdx? (endsSection (headerOf sect))
          ((updateLinesAt lines (headerOf sect) u s).drop (s + 1))
          = none := by
        rw [hdropNL, hSnil]
        apply (firstIdx?_eq_none_iff _ _).mpr
        intro x hx
        rcases List.mem_append.mp hx with hx | hx
        · exact hB'e x hx
        · rcases List.mem_append.mp hx with hx | hx
          · exact hIe x hx
          · simp at hx
      rw [sectionEndIdx_none _ _ _ hfi, hNL]
      rw [List.length_append, List.length_append, List.length_append,
          hlenP, hlenB, hSnil]
      simp only [List.length_nil]
      omega
  have hbodyNL : sectionBody (updateLinesAt lines (headerOf sect) u s)
      (headerOf sect) s
      = (sectionBody lines (headerOf sect) s).map (rewriteLine u)
        ++ toInsertOf u
            ((sectionBody lines (headerOf sect) s).filterMap
              (matchedKey? u)) := by
    rw [sectionBody, heNL, hdropNL]
    have harith : sectionEndIdx lines (headerOf sect) s
        + (toInsertOf u
            ((sectionBody lines (headerOf sect) s).filterMap
              (matchedKey? u))).length - (s + 1)
        = ((sectionBody lines (headerOf sect) s).map
            (rewriteLine u)).length
          + (toInsertOf u
              ((sectionBody lines (headerOf sect) s).filterMap
                (matchedKey? u))).length := by
      rw [hlenB]; omega
    rw [harith, List.take_append, List.take_left]
  constructor
  · rw [hNL, htake, List.append_assoc, ← hXlen]
    simp only [List.singleton_append]
    exact firstIdx?_append_cons_true _ X hl _ hX hhl
  · have hmapB : ((sectionBody lines (headerOf sect) s).map
        (rewriteLine u)).map (rewriteLine u)
        = (sectionBody lines (headerOf sect) s).map (rewriteLine u) := by
      rw [List.map_map]
      exact List.map_eq_map_iff.mpr fun l _ =>
        rewriteLine_idem u hnd hwfk hwfv l
    have hmapI : (toInsertOf u
        ((sectionBody lines (headerOf sect) s).filterMap
          (matchedKey? u))).map (rewriteLine u)
        = toInsertOf u
            ((sectionBody lines (headerOf sect) s).filterMap
              (matchedKey? u)) := by
      rw [toInsertOf, List.map_map]
      exact List.map_eq_map_iff.mpr fun kv hkv =>
        rewriteLine_mkKV u kv.1 kv.2 (List.mem_of_mem_filter hkv) hnd hwfk
          (hwfv kv (List.mem_of_mem_filter hkv))
    have hfmB : ((sectionBody lines (headerOf sect) s).map
        (rewriteLine u)).filterMap (matchedKey? u)
        = (sectionBody lines (headerOf sect) s).filterMap
            (matchedKey? u) := by
      rw [List.filterMap_map]
      exact List.filterMap_congr fun l _ =>
        matchedKey?_rewriteLine u hnd hwfk hwfv l
    have hfmI : (toInsertOf u
        ((sectionBody lines (headerOf sect) s).filterMap
          (matchedKey? u))).filterMap (matchedKey? u)
        = (u.filter (fun kv =>
            !(((sectionBody lines (headerOf sect) s).filterMap
                (matchedKey? u)).contains kv.1))).map Prod.fst := by
      rw [toInsertOf, List.filterMap_map]
      refine Eq.trans (List.filterMap_congr ?_) (filterMap_some_fst _)
      intro kv hkv
      exact matchedKey?_mkKV u kv.1 kv.2 (List.mem_of_mem_filter hkv) hnd
        hwfk (hwfv kv (List.mem_of_mem_filter hkv))
    have hI2 : toInsertOf u
        (((sectionBody lines (headerOf sect) s).map (rewriteLine u)
            ++ toInsertOf u
                ((sectionBody lines (headerOf sect) s).filterMap
                  (matchedKey? u))).filterMap (matchedKey? u)) = [] := by
      rw [List.filterMap_append, hfmB, hfmI, toInsertOf]
      rw [List.filter_eq_nil_iff.mpr ?_]
      · rfl
      · intro kv hkv
        simp only [Bool.not_eq_true', Bool.not_eq_false]
        by_cases hc : ((sectionBody lines (headerOf sect) s).filterMap
            (matchedKey? u)).contains kv.1
        · exact List.elem_eq_true_of_mem
            (List.mem_append_left _ (List.mem_of_elem_eq_true hc))
        · refine List.elem_eq_true_of_mem (List.mem_append_right _ ?_)
          refine List.mem_map_of_mem Prod.fst ?_
          refine List.mem_filter.mpr ⟨hkv, ?_⟩
          have hcf : ((sectionBody lines (headerOf sect) s).filterMap
              (matchedKey? u)).contains kv.1 = false :=
            Bool.eq_false_iff.mpr hc
          rw [hcf]
          rfl
    have hdrop2 : (updateLinesAt lines (headerOf sect) u s).drop
        (sectionEndIdx lines (headerOf sect) s
          + (toInsertOf u
              ((sectionBody lines (headerOf sect) s).filterMap
                (matchedKey? u))).length)
        = lines.drop (sectionEndIdx lines (headerOf sect) s) := by
      rw [hNL]
      have harith : sectionEndIdx lines (headerOf sect) s
          + (toInsertOf u
              ((sectionBody lines (headerOf sect) s).filterMap
                (matchedKey? u))).length
          = (lines.take (s + 1)).length
            + (((sectionBody lines (headerOf sect) s).map
                (rewriteLine u)).length
              + (toInsertOf u
                  ((sectionBody lines (headerOf sect) s).filterMap
                    (matchedKey? u))).length) := by
        rw [hlenP, hlenB]; omega
      rw [harith, List.drop_append]
      rw [show ((sectionBody lines (headerOf sect) s).map
            (rewriteLine u)).length
          + (toInsertOf u
              ((sectionBody lines (headerOf sect) s).filterMap
                (matchedKey? u))).length
          = ((sectionBody lines (headerOf sect) s).map (rewriteLine u)
              ++ toInsertOf u
                ((sectionBody lines (headerOf sect) s).filterMap
                  (matchedKey? u))).length by rw [List.length_append]]
      rw [← List.append_assoc, List.drop_left]
    have htake2 : (updateLinesAt lines (headerOf sect) u s).take (s + 1)
        = lines.take (s + 1) := by
      rw [hNL, List.take_left' hlenP]
    rw [updateLinesAt, heNL, hbodyNL, List.map_append, hmapB, hmapI,
        hI2, hdrop2, htake2, hNL]
    simp [List.append_assoc]

/-! ## Stability of a second application (appended section) -/

theorem appendNewSection_stable (content sect : List Char)
    (u : List (List Char × List Char))
    (hcr : '\r' ∉ content)
    (hsect : ∀ c ∈ sect, ¬c = '\n' ∧ ¬c = '\r')
    (hnd : (u.map Prod.fst).Nodup)
    (hwfk : ∀ kv ∈ u, wfKey kv.1 = true)
    (hwfv : ∀ kv ∈ u, wfVal kv.2 = true)
    (hn : sectionStartIdx? (splitRN content) (headerOf sect) = none) :
    updateIniSectionL (appendNewSection content (headerOf sect) u) sect u
      = appendNewSection content (headerOf sect) u := by
  have hkvs_lf : ∀ l ∈ u.map (fun kv => mkKVLine kv.1 kv.2),
      '\n' ∉ l := by
    intro l hl
    obtain ⟨kv, hkv, rfl⟩ := List.mem_map.mp hl
    exact mkKV_no_lf kv.1 kv.2 (hwfk kv hkv) (hwfv kv hkv)
  have hkvs_cr : ∀ l ∈ u.map (fun kv => mkKVLine kv.1 kv.2),
      '\r' ∉ l := by
    intro l hl
    obtain ⟨kv, hkv, rfl⟩ := List.mem_map.mp hl
    exact mkKV_no_cr kv.1 kv.2 (hwfk kv hkv) (hwfv kv hkv)
  have hO1 : appendNewSection content (headerOf sect) u
      = (content ++ (if endsWithNL content then [] else ['\n']))
        ++ '\n' :: (joinLF (headerOf sect
            :: u.map (fun kv => mkKVLine kv.1 kv.2)) ++ ['\n']) := by
    rw [appendNewSection, joinLF_cons_cons]
    simp [List.append_assoc]
  have hD : splitLF (joinLF (headerOf sect
      :: u.map (fun kv => mkKVLine kv.1 kv.2)) ++ ['\n'])
      = (headerOf sect :: u.map (fun kv => mkKVLine kv.1 kv.2))
        ++ [[]] := by
    rw [show joinLF (headerOf sect
        :: u.map (fun kv => mkKVLine kv.1 kv.2)) ++ ['\n']
        = joinLF (headerOf sect :: u.map (fun kv => mkKVLine kv.1 kv.2))
          ++ '\n' :: [] from rfl,
        splitLF_append_lf,
        splitLF_joinLF (headerOf sect
          :: u.map (fun kv => mkKVLine kv.1 kv.2)) (by simp) ?_]
    · rfl
    · intro l hl
      rcases List.mem_cons.mp hl with rfl | hl
      · exact headerOf_no_lf sect hsect
      · exact hkvs_lf l hl
  have hC' : splitLF (content ++ (if endsWithNL content then [] else ['\n']))
      = splitLF content
        ++ (if endsWithNL content then [] else [[]]) := by
    by_cases h : endsWithNL content = true
    · simp [h]
    · simp only [h]
      rw [if_neg (by simp [h]), if_neg (by simp [h]),
          show content ++ ['\n'] = content ++ '\n' :: [] from rfl,
          splitLF_append_lf]
      rfl
  have hO1cr : '\r' ∉ appendNewSection content (headerOf sect) u := by
    rw [hO1]
    intro hm
    rcases List.mem_append.mp hm with h | h
    · rcases List.mem_append.mp h with h | h
      · exact hcr h
      · by_cases hwn : endsWithNL content = true
        · rw [if_pos hwn] at h
          simp at h
        · rw [if_neg hwn] at h
          exact absurd (List.mem_singleton.mp h) (by decide)
    · rcases List.mem_cons.mp h with h | h
      · exact absurd h (by decide)
      rcases List.mem_append.mp h with h | h
      · rcases joinLF_mem _ _ h with h | ⟨l, hl, hcl⟩
        · exact absurd h (by decide)
        · rcases List.mem_cons.mp hl with rfl | hl
          · exact headerOf_no_cr sect hsect hcl
          · exact hkvs_cr l hl hcl
      · rcases List.mem_singleton.mp h with h
        exact absurd h (by decide)
  have hlines : splitRN (appendNewSection content (headerOf sect) u)
      = (splitLF content ++ (if endsWithNL content then [] else [[]]))
        ++ headerOf sect
          :: (u.map (fun kv => mkKVLine kv.1 kv.2) ++ [[]]) := by
    rw [splitRN_of_no_cr _ hO1cr, hO1, splitLF_append_lf, hC', hD]
    simp [List.append_assoc]
  have hXnh : ∀ x ∈ splitLF content
      ++ (if endsWithNL content then [] else [[]]),
      isHeaderLine (headerOf sect) x = false := by
    intro x hx
    rcases List.mem_append.mp hx with h | h
    · have hall := (firstIdx?_eq_none_iff
        (isHeaderLine (headerOf sect)) (splitRN content)).mp hn
      rw [splitRN_of_no_cr content hcr] at hall
      exact hall x h
    · by_cases hwn : endsWithNL content = true
      · rw [if_pos hwn] at h
        simp at h
      · rw [if_neg hwn] at h
        have h2 := List.mem_singleton.mp h
        rw [h2]
        exact isHeaderLine_nil sect
  have hstart2 : sectionStartIdx?
      (splitRN (appendNewSection content (headerOf sect) u))
      (headerOf sect)
      = some (splitLF content
          ++ (if endsWithNL content then [] else [[]])).length := by
    rw [hlines]
    exact firstIdx?_append_cons_true _ _ _ _ hXnh
      (isHeaderLine_headerOf_self sect)
  rw [updateIniSectionL_found _ _ _ _ hstart2]
  -- the rewrite pass leaves the appended section unchanged
  have hdrop2 : (splitRN (appendNewSection content (headerOf sect) u)).drop
      ((splitLF content
        ++ (if endsWithNL content then [] else [[]])).length + 1)
      = u.map (fun kv => mkKVLine kv.1 kv.2) ++ [[]] := by
    rw [hlines, show (splitLF content
          ++ (if endsWithNL content then [] else [[]]))
          ++ headerOf sect
            :: (u.map (fun kv => mkKVLine kv.1 kv.2) ++ [[]])
        = ((splitLF content
            ++ (if endsWithNL content then [] else [[]]))
              ++ [headerOf sect])
          ++ (u.map (fun kv => mkKVLine kv.1 kv.2) ++ [[]]) by simp,
        List.drop_left' (by simp [Nat.add_assoc])]
  have hend2 : sectionEndIdx
      (splitRN (appendNewSection content (headerOf sect) u))
      (headerOf sect)
      ((splitLF content ++ (if endsWithNL content then [] else [[]])).length)
      = (splitRN (appendNewSection content (headerOf sect) u)).length := by
    apply sectionEndIdx_none
    rw [hdrop2]
    apply (firstIdx?_eq_none_iff _ _).mpr
    intro x hx
    rcases List.mem_append.mp hx with h | h
    · obtain ⟨kv, hkv, rfl⟩ := List.mem_map.mp h
      exact endsSection_mkKV sect kv.1 kv.2 (hwfk kv hkv)
    · rcases List.mem_singleton.mp h with rfl
      exact endsSection_nil (headerOf sect)
  have hbody2 : sectionBody
      (splitRN (appendNewSection content (headerOf sect) u))
      (headerOf sect)
      ((splitLF content ++ (if endsWithNL content then [] else [[]])).length)
      = u.map (fun kv => mkKVLine kv.1 kv.2) ++ [[]] := by
    rw [sectionBody, hend2, hdrop2]
    apply List.take_of_length_le
    have h1 := congrArg List.length hdrop2
    rw [List.length_drop] at h1
    omega
  have hmap2 : (u.map (fun kv : List Char × List Char =>
        mkKVLine kv.1 kv.2) ++ [[]]).map (rewriteLine u)
      = u.map (fun kv : List Char × List Char =>
          mkKVLine kv.1 kv.2) ++ [[]] := by
    rw [List.map_append, List.map_map]
    congr 1
    · exact List.map_eq_map_iff.mpr
        fun (kv : List Char × List Char) hkv =>
          rewriteLine_mkKV u kv.1 kv.2 hkv hnd hwfk (hwfv kv hkv)
    · rw [show ([[]] : List (List Char)).map (rewriteLine u)
          = [rewriteLine u []] from rfl,
          rewriteLine_of_find?_none u [] (find?_nil_line u hwfk)]
  have hfm2 : (u.map (fun kv : List Char × List Char =>
        mkKVLine kv.1 kv.2) ++ [[]]).filterMap (matchedKey? u)
      = u.map Prod.fst := by
    rw [List.filterMap_append, List.filterMap_map]
    rw [show ([[]] : List (List Char)).filterMap (matchedKey? u)
        = [] from by
      simp only [List.filterMap_cons]
      rw [show matchedKey? u [] = none from by
        rw [matchedKey?, find?_nil_line u hwfk]
        rfl]
      rfl]
    rw [List.append_nil]
    exact Eq.trans (List.filterMap_congr
      fun (kv : List Char × List Char) hkv =>
        matchedKey?_mkKV u kv.1 kv.2 hkv hnd hwfk (hwfv kv hkv))
      (filterMap_some_fst u)
  have hins2 : toInsertOf u (u.map Prod.fst) = [] := by
    rw [toInsertOf, List.filter_eq_nil_iff.mpr ?_]
    · rfl
    · intro kv hkv
      simp only [Bool.not_eq_true', Bool.not_eq_false]
      exact List.elem_eq_true_of_mem (List.mem_map_of_mem Prod.fst hkv)
  have htake2 : (splitRN (appendNewSection content (headerOf sect) u)).take
      ((splitLF content
        ++ (if endsWithNL content then [] else [[]])).length + 1)
      = (splitLF content ++ (if endsWithNL content then [] else [[]]))
        ++ [headerOf sect] := by
    rw [hlines, show (splitLF content
          ++ (if endsWithNL content then [] else [[]]))
          ++ headerOf sect
            :: (u.map (fun kv => mkKVLine kv.1 kv.2) ++ [[]])
        = ((splitLF content
            ++ (if endsWithNL content then [] else [[]]))
              ++ [headerOf sect])
          ++ (u.map (fun kv => mkKVLine kv.1 kv.2) ++ [[]]) by simp,
        List.take_left' (by simp [Nat.add_assoc])]
  rw [updateLinesAt, hbody2, hmap2, hfm2, hins2, hend2, List.drop_length,
      htake2]
  rw [show (appendNewSection content (headerOf sect) u)
      = joinLF (splitLF (appendNewSection content (headerOf sect) u))
      from (joinLF_splitLF _).symm]
  rw [show splitLF (appendNewSection content (headerOf sect) u)
      = splitRN (appendNewSection content (headerOf sect) u) from
      (splitRN_of_no_cr _ hO1cr).symm, hlines]
  simp [List.append_assoc]

/-! ## Idempotence of `updateIniSection` on well-formed input -/

theorem updateIniSectionL_idem (content sect : List Char)
    (u : List (List Char × List Char))
    (hcr : '\r' ∉ content)
    (hsect : ∀ c ∈ sect, ¬c = '\n' ∧ ¬c = '\r')
    (hnd : (u.map Prod.fst).Nodup)
    (hwfk : ∀ kv ∈ u, wfKey kv.1 = true)
    (hwfv : ∀ kv ∈ u, wfVal kv.2 = true) :
    updateIniSectionL (updateIniSectionL content sect u) sect u
      = updateIniSectionL content sect u := by
  rcases hstart : sectionStartIdx? (splitRN content) (headerOf sect)
    with _ | s
  · rw [updateIniSectionL_absent content sect u hstart]
    exact appendNewSection_stable content sect u hcr hsect hnd hwfk hwfv
      hstart
  · rw [updateIniSectionL_found content sect u s hstart]
    obtain ⟨hfs, hstab⟩ :=
      updateLinesAt_stable (splitRN content) sect u s hnd hwfk hwfv hstart
    have hlt := sectionStartIdx?_lt (splitRN content) (headerOf sect) s
      hstart
    have hne : updateLinesAt (splitRN content) (headerOf sect) u s
        ≠ [] := by
      intro hcon
      have hlen := congrArg List.length hcon
      rw [updateLinesAt, List.length_append, List.length_take] at hlen
      simp only [List.length_nil] at hlen
      omega
    have hmem_lf : ∀ l ∈ updateLinesAt (splitRN content) (headerOf sect)
        u s, '\n' ∉ l := by
      intro l hl
      rcases mem_updateLinesAt _ _ _ _ l hl with h | ⟨kv, hkv, rfl⟩
      · rw [splitRN_of_no_cr content hcr] at h
        exact mem_splitLF_no_lf content l h
      · exact mkKV_no_lf kv.1 kv.2 (hwfk kv hkv) (hwfv kv hkv)
    have hmem_cr : ∀ l ∈ updateLinesAt (splitRN content) (headerOf sect)
        u s, '\r' ∉ l := by
      intro l hl
      rcases mem_updateLinesAt _ _ _ _ l hl with h | ⟨kv, hkv, rfl⟩
      · rw [splitRN_of_no_cr content hcr] at h
        intro hcon
        exact hcr (mem_splitLF_mem content l h '\r' hcon)
      · exact mkKV_no_cr kv.1 kv.2 (hwfk kv hkv) (hwfv kv hkv)
    have hjoin : splitRN (joinLF (updateLinesAt (splitRN content)
        (headerOf sect) u s))
        = updateLinesAt (splitRN content) (headerOf sect) u s :=
      splitRN_joinLF_clean _ hne hmem_lf hmem_cr
    have hs2 : sectionStartIdx? (splitRN (joinLF (updateLinesAt
        (splitRN content) (headerOf sect) u s))) (headerOf sect)
        = some s := by
      rw [hjoin]
      exact hfs
    rw [updateIniSectionL_found _ sect u s hs2, hjoin, hstab]

/-! ## Helper lemmas about the applied-set walk -/

theorem walkFuel_none (next : String → Option String) (fuel : Nat)
    (acc : List String) : walkFuel next fuel none acc = some acc := by
  cases fuel <;> rfl

theorem walkFuel_succ (next : String → Option String) (n : Nat) (s : String)
    (acc : List String) (h : ¬s = "") :
    walkFuel next (n + 1) (some s) acc
      = walkFuel next n (next s) (setAdd acc s) := by
  simp [walkFuel, h]

/-- On the two-cycle, the walk never leaves `{a, b}` and never meets an
absent parent, so no amount of fuel finishes it. -/
theorem walkFuel_cycle_diverges (n : Nat) :
    ∀ (acc : List String) (w : String), w = "a" ∨ w = "b" →
      walkFuel (idToDown cycleMigs) n (some w) acc = none := by
  induction n with
  | zero =>
    intro acc w hw
    rcases hw with rfl | rfl <;> rfl
  | succ n ih =>
    intro acc w hw
    rcases hw with rfl | rfl
    · show walkFuel (idToDown cycleMigs) n (some "b") _ = none
      exact ih _ _ (Or.inr rfl)
    · show walkFuel (idToDown cycleMigs) n (some "a") _ = none
      exact ih _ _ (Or.inl rfl)

/-- C1. The claim states that the applied-set resolver, given a revision
list whose `downRevision` pointers form the cycle `A→B→A` with the
current revision inside it, terminates within a walk bounded by the
revision count and fails with `CyclicHistoryError`.  The code
(`getMigrations`, alembicService.ts lines 231-235) has no bound and no
such error: `while (walker)` revisits the cycle forever.  Formally: for
every fuel value the modelled walk is still running, i.e. the resolver
never produces a result on this input. -/
theorem C1_cycle_walk_never_terminates (fuel : Nat) :
    resolveApplied cycleMigs fuel = none := by
  show (match walkFuel (idToDown cycleMigs) fuel (some "a") [] with
        | none => (none : Option (List Migration))
        | some applied =>
          some (cycleMigs.map fun m =>
            { m with isApplied := applied.contains m.id })) = none
  rw [walkFuel_cycle_diverges fuel [] "a" (Or.inl rfl)]

/-- C3. The applied-set resolver on `[A(parent=None), B(parent=A),
C(parent=B)]`: with C current it marks `{A,B,C}` applied; with B current
it marks `{A,B}` applied and C pending; with no current revision it
marks all three not-applied.  Stated for every sufficient fuel value
(three iterations reach the root). -/
theorem C3_chain_applied_sets (fuel : Nat) (h : 3 ≤ fuel) :
    resolveApplied (chainMigs false false true) fuel
        = some (chainMigs false false true |>.map
            fun m => { m with isApplied := true })
      ∧ resolveApplied (chainMigs false true false) fuel
          = some [{ id := "a", shortId := "a", message := "m",
                    isCurrent := false, isApplied := true,
                    downRevision := none },
                  { id := "b", shortId := "b", message := "m",
                    isCurrent := true, isApplied := true,
                    downRevision := some "a" },
                  { id := "c", shortId := "c", message := "m",
                    isCurrent := false, isApplied := false,
                    downRevision := some "b" }]
      ∧ resolveApplied (chainMigs false false false) fuel
          = some (chainMigs false false false |>.map
              fun m => { m with isApplied := false }) := by
  obtain ⟨k, rfl⟩ : ∃ k, fuel = k + 3 := ⟨fuel - 3, by omega⟩
  refine ⟨?_, ?_, ?_⟩
  · have hw : walkFuel (idToDown (chainMigs false false true)) (k + 3)
        (some "c") [] = some ["c", "b", "a"] := by
      rw [show k + 3 = k + 2 + 1 by omega,
          walkFuel_succ _ _ _ _ (by decide),
          show idToDown (chainMigs false false true) "c" = some "b" from rfl,
          show k + 2 = k + 1 + 1 by omega,
          walkFuel_succ _ _ _ _ (by decide),
          show idToDown (chainMigs false false true) "b" = some "a" from rfl,
          walkFuel_succ _ _ _ _ (by decide),
          show idToDown (chainMigs false false true) "a" = none from rfl,
          walkFuel_none]
      rfl
    show (match walkFuel (idToDown (chainMigs false false true)) (k + 3)
            (some "c") [] with
          | none => (none : Option (List Migration))
          | some applied =>
            some ((chainMigs false false true).map fun (m : Migration) =>
              { m with isApplied := applied.contains m.id })) = _
    rw [hw]
    rfl
  · have hw : walkFuel (idToDown (chainMigs false true false)) (k + 3)
        (some "b") [] = some ["b", "a"] := by
      rw [show k + 3 = k + 2 + 1 by omega,
          walkFuel_succ _ _ _ _ (by decide),
          show idToDown (chainMigs false true false) "b" = some "a" from rfl,
          show k + 2 = k + 1 + 1 by omega,
          walkFuel_succ _ _ _ _ (by decide),
          show idToDown (chainMigs false true false) "a" = none from rfl,
          walkFuel_none]
      rfl
    show (match walkFuel (idToDown (chainMigs false true false)) (k + 3)
            (some "b") [] with
          | none => (none : Option (List Migration))
          | some applied =>
            some ((chainMigs false true false).map fun (m : Migration) =>
              { m with isApplied := applied.contains m.id })) = _
    rw [hw]
    rfl
  · rfl

/-- Witness for C3 at fuel 3. -/
theorem C3_chain_applied_sets_witness :
    3 ≤ 3 ∧
      resolveApplied (chainMigs false false true) 3
        = some (chainMigs false false true |>.map
            fun m => { m with isApplied := true }) :=
  ⟨by decide, (C3_chain_applied_sets 3 (by decide)).1⟩

/-- C2. Evaluation of the parse-resolve-project pipeline at the claim's
own input.  The claim expects two revisions (`aaa111` and `bbb222`); the
code produces only `bbb222`: the root line `None -> aaa111, init schema`
cannot match `^([a-f0-9]+)\s+\->\s+...` because `N` and `o` are not in
`[a-f0-9]`, even though line 361 of alembicService.ts tests
`downRev !== "None"` in the expectation that such lines are captured.
The single surviving revision is current and applied, and the projector
still emits the edge `aaa111→bbb222` (from the dangling parent pointer),
but the `aaa111` node itself is missing. -/
theorem C2_root_history_line_is_dropped :
    parseMigrations c2History "bbb222" false = [c2Parsed]
      ∧ (parseMigrations c2History "bbb222" false).length ≠ 2
      ∧ resolveApplied [c2Parsed] 2 = some [c2Parsed]
      ∧ (getMigrationGraph [c2Parsed]).2
          = [{ fromRev := "aaa111", toRev := "bbb222", arrows := "to" }]
      ∧ (getMigrationGraph [c2Parsed]).1.length = 1 := by
  refine ⟨by decide, by decide, ?_, by decide, by decide⟩
  rfl

/-- C5 counterexample: a revision whose `downRevision` is present but
empty (`some ""`, a legal value of the TS type `string | undefined`)
produces no edge, because the code filters on JS truthiness
(`migrations.filter((m) => m.downRevision)`) and `""` is falsy.  So the
edge count is not the count of revisions with a *present* parent. -/
theorem C5_counterexample :
    ¬((getMigrationGraph [emptyDownMig]).2.length
        = [emptyDownMig].countP (fun m => m.downRevision.isSome)) := by
  decide

/-- C5 as amended: node count always equals revision count; edge count
equals the number of revisions whose `downRevision` is present *and
non-empty* (JS-truthy); the empty revision list yields empty nodes and
edges. -/
theorem C5_graph_counts :
    (∀ ms : List Migration,
        (getMigrationGraph ms).1.length = ms.length
          ∧ (getMigrationGraph ms).2.length
              = ms.countP (fun m => truthyStrOpt m.downRevision))
      ∧ getMigrationGraph [] = ([], []) := by
  refine ⟨fun ms => ⟨?_, ?_⟩, rfl⟩
  · simp [getMigrationGraph]
  · simp [getMigrationGraph, List.countP_eq_length_filter]

/-- C6 counterexample: on a non-zero exit with *empty* captured stderr,
the failure payload is the fallback text
`"Process exited with code <n>"`, not the captured stderr text
(`reject(new Error(stderr || ...))`). -/
theorem C6_counterexample :
    executeCommandClose 1 "out" ""
        = .error "Process exited with code 1"
      ∧ executeCommandClose 1 "out" "" ≠ .error "" := by
  refine ⟨rfl, ?_⟩
  rw [show executeCommandClose 1 "out" ""
      = .error "Process exited with code 1" from rfl]
  intro hc
  injection hc with hs
  exact absurd hs (by decide)

/-- C6 as amended: the runner resolves with the captured stdout exactly
when the exit code is 0; on a non-zero exit it fails, with the captured
stderr as payload when stderr is non-empty and the fallback message
`"Process exited with code <n>"` otherwise. -/
theorem C6_exit_code_semantics (code : Int) (stdout stderr : String) :
    (code = 0 → executeCommandClose code stdout stderr = .ok stdout)
      ∧ (code ≠ 0 →
          executeCommandClose code stdout stderr
            = .error (if stderr = ""
                      then "Process exited with code " ++ toString code
                      else stderr)) := by
  constructor <;> intro h <;> simp [executeCommandClose, h]

/-- Witness for C6 at exit code 1 with non-empty stderr. -/
theorem C6_exit_code_semantics_witness :
    (1 : Int) ≠ 0 ∧ executeCommandClose 1 "ok" "boom" = .error "boom" := by
  refine ⟨by decide, ?_⟩
  have h := (C6_exit_code_semantics 1 "ok" "boom").2 (by decide)
  simpa using h

/-- C8 counterexample: a history output that repeats a line produces two
revisions with the same id, both marked current, so "at most one
revision has `isCurrent = true`" fails as stated. -/
theorem C8_counterexample :
    ¬((parseMigrations
          "aaa111 -> bbb222, add users\naaa111 -> bbb222, add users"
          "bbb222" false).countP (fun m => m.isCurrent) ≤ 1) := by
  decide

/-- Every parsed migration that is marked current has the trimmed
current-output text as its id (the parser sets
`isCurrent: id === currentMigration`). -/
theorem parseLine_current_id (cur : List Char) (f : Bool) (line : List Char)
    (m : Migration) (h : parseLine cur f line = some m)
    (hc : m.isCurrent = true) : m.id = ⟨cur⟩ := by
  unfold parseLine at h
  rcases hmatch : matchHistoryLine line with _ | ⟨d, idOpt, msg⟩
  · rw [hmatch] at h; exact absurd h (by simp)
  · rw [hmatch] at h
    rcases idOpt with _ | id
    · exact absurd h (by simp)
    · simp only [Option.some.injEq] at h
      subst h
      simp only at hc
      have hid : id = cur := by simpa using eq_of_beq hc
      simp [hid]

/-- C8 as amended: in every parsed revision list, every revision with
`isCurrent = true` has id equal to the trimmed current output — all
current-marked revisions share one id, so at most one revision is
current whenever the parsed ids are distinct.  (As stated the claim
fails only because duplicated history lines can repeat an id, see the
counterexample.) -/
theorem C8_current_revisions_share_id (h c : String) (f : Bool)
    (m : Migration) (hm : m ∈ parseMigrations h c f)
    (hc : m.isCurrent = true) : m.id = jsTrim c := by
  obtain ⟨line, _, hp⟩ := List.mem_filterMap.mp hm
  exact parseLine_current_id _ _ _ _ hp hc

/-- Witness for C8 on the concrete scenario list. -/
theorem C8_current_revisions_share_id_witness :
    c2Parsed ∈ parseMigrations c2History "bbb222" false
      ∧ c2Parsed.isCurrent = true
      ∧ c2Parsed.id = jsTrim "bbb222" := by
  have hm : c2Parsed ∈ parseMigrations c2History "bbb222" false := by decide
  exact ⟨hm, rfl, C8_current_revisions_share_id _ _ _ _ hm rfl⟩

/-- C9 counterexample: the empty message is within every length bound
but is *not* returned unchanged — the falsy-message branch returns
`"No description"`. -/
theorem C9_counterexample :
    ("" : String).length ≤ 50
      ∧ formatMessage "" 50 = "No description"
      ∧ formatMessage "" 50 ≠ "" := by
  refine ⟨by decide, rfl, by decide⟩

/-- C9 as amended: for a non-empty message and a maximum of at least 3,
`formatMessage` returns the message unchanged when its length is at most
the maximum, and otherwise returns the first `maxLength - 3` characters
followed by `"..."`, a string of length exactly `maxLength`. -/
theorem C9_format_message (message : String) (maxLength : Nat)
    (hne : message ≠ "") (hmax : 3 ≤ maxLength) :
    (message.length ≤ maxLength →
        formatMessage message maxLength = message)
      ∧ (maxLength < message.length →
          formatMessage message maxLength
              = ⟨message.data.take (maxLength - 3) ++ ['.', '.', '.']⟩
            ∧ (formatMessage message maxLength).data.length = maxLength) := by
  constructor
  · intro hlen
    simp [formatMessage, hne, hlen]
  · intro hlen
    have h1 : ¬message.length ≤ maxLength := by omega
    refine ⟨by simp [formatMessage, hne, h1], ?_⟩
    have h2 : formatMessage message maxLength
        = ⟨message.data.take (maxLength - 3) ++ ['.', '.', '.']⟩ := by
      simp [formatMessage, hne, h1]
    rw [h2]
    show (message.data.take (maxLength - 3) ++ ['.', '.', '.']).length
        = maxLength
    rw [List.length_append, List.length_take]
    have hdl : message.data.length = message.length := rfl
    simp only [List.length_cons, List.length_nil]
    omega

/-- C4 counterexample: `updateIniSection` is *not* textually idempotent
for every input.  With the single update `a ↦ "1\n2"` (a value
containing a newline) on `"[s]\n"`, the first application appends the
line `a = 1\n2`; the second application re-splits that text into the
lines `a = 1` and `2`, rewrites `a = 1` back to the two-line value, and
keeps the stray `2`, so the text grows. -/
theorem C4_counterexample :
    updateIniSection "[s]\n" "s" [("a", "1\n2")] = "[s]\n\na = 1\n2"
      ∧ updateIniSection (updateIniSection "[s]\n" "s" [("a", "1\n2")])
            "s" [("a", "1\n2")]
          = "[s]\n\na = 1\n2\n2"
      ∧ updateIniSection (updateIniSection "[s]\n" "s" [("a", "1\n2")])
            "s" [("a", "1\n2")]
          ≠ updateIniSection "[s]\n" "s" [("a", "1\n2")] := by
  refine ⟨by decide, by decide, by decide⟩

/-- C7 counterexample: when the section header is repeated verbatim, the
missing key is *not* inserted immediately before the next section
header.  In `"[s]\n[s]\nx = 0\n"` the line at index 1 is a section
header, yet `a = 1` is appended at the end of file (a repeated identical
header does not terminate the scan), not before that header. -/
theorem C7_counterexample :
    updateIniSection "[s]\n[s]\nx = 0\n" "s" [("a", "1")]
        = "[s]\n[s]\nx = 0\n\na = 1"
      ∧ trimList (((splitRN ("[s]\n[s]\nx = 0\n" : String).data).get?
            1).getD []) = headerOf ("s" : String).data
      ∧ updateIniSection "[s]\n[s]\nx = 0\n" "s" [("a", "1")]
          ≠ "[s]\na = 1\n[s]\nx = 0\n" := by
  refine ⟨by decide, by decide, by decide⟩

/-- C7 as amended: when the named section exists (first line whose trim
equals the header, at index `s`), the output is the LF-join of: the
unchanged lines up to and including the header; the section body in
which exactly the lines matched by some update key's regex are
rewritten; the missing-key block inserted immediately before the next
section header *with a different name* (a repeated identical header
does not end the section — see the counterexample) or at end of file;
and the unchanged remaining lines.  In particular every line outside
the matched ones — comments included — reappears verbatim, in order, at
a predictable index. -/
theorem C7_section_update_frame (content sect : String)
    (updates : List (String × String)) (s : Nat)
    (hs : sectionStartIdx? (splitRN content.data) (headerOf sect.data)
        = some s) :
    (updateIniSection content sect updates).data
        = joinLF (updateLinesAt (splitRN content.data)
            (headerOf sect.data) (entryData updates) s)
      ∧ updateLinesAt (splitRN content.data) (headerOf sect.data)
            (entryData updates) s
          = (splitRN content.data).take (s + 1)
            ++ ((sectionBody (splitRN content.data)
                  (headerOf sect.data) s).map
                    (rewriteLine (entryData updates))
              ++ (toInsertOf (entryData updates)
                    ((sectionBody (splitRN content.data)
                      (headerOf sect.data) s).filterMap
                        (matchedKey? (entryData updates)))
                ++ (splitRN content.data).drop
                    (sectionEndIdx (splitRN content.data)
                      (headerOf sect.data) s)))
      ∧ (∀ i, i ≤ s →
          (updateLinesAt (splitRN content.data) (headerOf sect.data)
              (entryData updates) s)[i]?
            = (splitRN content.data)[i]?)
      ∧ (∀ i, s < i →
          i < sectionEndIdx (splitRN content.data) (headerOf sect.data) s →
          matchedKey? (entryData updates)
              (((splitRN content.data)[i]?).getD []) = none →
          (updateLinesAt (splitRN content.data) (headerOf sect.data)
              (entryData updates) s)[i]?
            = (splitRN content.data)[i]?)
      ∧ (∀ i,
          sectionEndIdx (splitRN content.data) (headerOf sect.data) s ≤ i →
          i < (splitRN content.data).length →
          (updateLinesAt (splitRN content.data) (headerOf sect.data)
              (entryData updates) s)[i
                + (toInsertOf (entryData updates)
                    ((sectionBody (splitRN content.data)
                      (headerOf sect.data) s).filterMap
                        (matchedKey? (entryData updates)))).length]?
            = (splitRN content.data)[i]?) := by
  have hlt := sectionStartIdx?_lt _ _ _ hs
  refine ⟨?_, rfl,
    fun i hi => updateLinesAt_getElem?_le _ _ _ _ hlt i hi,
    fun i h1 h2 hm =>
      updateLinesAt_getElem?_body _ _ _ _ hlt i h1 h2 hm,
    fun i h1 h2 =>
      updateLinesAt_getElem?_after _ _ _ _ hlt i h1 h2⟩
  show (updateIniSectionL content.data sect.data (entryData updates)) = _
  rw [updateIniSectionL_found _ _ _ s hs]

/-- Witness for C7 on a section containing a comment line. -/
theorem C7_section_update_frame_witness :
    sectionStartIdx? (splitRN ("[s]\n; c\nx = 0\n" : String).data)
        (headerOf ("s" : String).data) = some 0
      ∧ (updateIniSection "[s]\n; c\nx = 0\n" "s" [("x", "9")]).data
          = joinLF (updateLinesAt
              (splitRN ("[s]\n; c\nx = 0\n" : String).data)
              (headerOf ("s" : String).data)
              (entryData [("x", "9")]) 0) := by
  have h : sectionStartIdx? (splitRN ("[s]\n; c\nx = 0\n" : String).data)
      (headerOf ("s" : String).data) = some 0 := by decide
  exact ⟨h, (C7_section_update_frame "[s]\n; c\nx = 0\n" "s"
    [("x", "9")] 0 h).1⟩

/-- C10.  For content whose carriage returns all belong to CRLF pairs:
when the named section exists, the result equals the result on the
CRLF-normalised content (all CRLF terminators — anywhere in the file,
not only in the target section — become LF, because the function joins
the split lines with `"\n"`); when the section is absent, the original
text is kept byte-for-byte and the new section block is appended after
it. -/
theorem C10_join_lf_or_verbatim_append (content sect : String)
    (updates : List (String × String))
    (hcr : crWellFormed content.data = true) :
    (∀ s, sectionStartIdx? (splitRN content.data) (headerOf sect.data)
          = some s →
        updateIniSection content sect updates
            = updateIniSection ⟨crlfToLf content.data⟩ sect updates
          ∧ '\r' ∉ crlfToLf content.data)
      ∧ (sectionStartIdx? (splitRN content.data) (headerOf sect.data)
            = none →
          (updateIniSection content sect updates).data
            = content.data
              ++ ((if endsWithNL content.data then [] else ['\n'])
                ++ (joinLF ([] :: headerOf sect.data
                      :: (entryData updates).map fun kv =>
                        mkKVLine kv.1 kv.2)
                  ++ ['\n']))) := by
  constructor
  · intro s hs
    refine ⟨?_, crlfToLf_no_cr content.data hcr⟩
    have hs' : sectionStartIdx? (splitRN (crlfToLf content.data))
        (headerOf sect.data) = some s := by
      rw [splitRN_crlfToLf content.data hcr]
      exact hs
    show (⟨updateIniSectionL content.data sect.data
        (entryData updates)⟩ : String) = _
    rw [updateIniSectionL_found _ _ _ s hs]
    show _ = (⟨updateIniSectionL (crlfToLf content.data) sect.data
        (entryData updates)⟩ : String)
    rw [updateIniSectionL_found _ _ _ s hs',
        splitRN_crlfToLf content.data hcr]
  · intro hn
    show (updateIniSectionL content.data sect.data (entryData updates)) = _
    rw [updateIniSectionL_absent _ _ _ hn, appendNewSection]
    simp [List.append_assoc]

/-- Witness for C10: CRLF content with the section present, and the
same content with the section absent. -/
theorem C10_join_lf_or_verbatim_append_witness :
    crWellFormed ("[a]\r\n[s]\r\nx = 0\r\n" : String).data = true
      ∧ updateIniSection "[a]\r\n[s]\r\nx = 0\r\n" "s" [("x", "9")]
          = updateIniSection
              ⟨crlfToLf ("[a]\r\n[s]\r\nx = 0\r\n" : String).data⟩
              "s" [("x", "9")] := by
  have hcr : crWellFormed ("[a]\r\n[s]\r\nx = 0\r\n" : String).data
      = true := by decide
  have hs : sectionStartIdx?
      (splitRN ("[a]\r\n[s]\r\nx = 0\r\n" : String).data)
      (headerOf ("s" : String).data) = some 1 := by decide
  exact ⟨hcr, ((C10_join_lf_or_verbatim_append "[a]\r\n[s]\r\nx = 0\r\n"
    "s" [("x", "9")] hcr).1 1 hs).1⟩

/-- C4 as amended: `updateIniSection` applied twice with the same
updates returns byte-identical text, *provided* the input is
well-formed: the content has no carriage returns, the section name has
no line terminators, the keys are non-empty, whitespace-free,
`=`-free, do not start with `[` and are pairwise distinct, and the
values contain no line terminators.  (Each restriction is forced by a
genuine failure: newline-carrying values duplicate text — see the
counterexample — CRLF content is normalised on the second pass only,
keys starting with `[` terminate the re-scan early, and a key that is a
whitespace-trimmed prefix of another shadows it on the second pass.) -/
theorem C4_idempotent_for_wf_updates (content sect : String)
    (updates : List (String × String))
    (hcr : '\r' ∉ content.data)
    (hsect : ∀ c ∈ sect.data, ¬c = '\n' ∧ ¬c = '\r')
    (hnd : ((entryData updates).map Prod.fst).Nodup)
    (hwfk : ∀ kv ∈ entryData updates, wfKey kv.1 = true)
    (hwfv : ∀ kv ∈ entryData updates, wfVal kv.2 = true) :
    updateIniSection (updateIniSection content sect updates) sect updates
      = updateIniSection content sect updates := by
  show (⟨updateIniSectionL (updateIniSectionL content.data sect.data
      (entryData updates)) sect.data (entryData updates)⟩ : String) = _
  rw [updateIniSectionL_idem content.data sect.data (entryData updates)
    hcr hsect hnd hwfk hwfv]
  rfl

/-- Witness for C4: two well-formed updates, one rewriting an existing
key, one inserted. -/
theorem C4_idempotent_for_wf_updates_witness :
    ('\r' ∉ ("[s]\nx = 0\n" : String).data)
      ∧ updateIniSection
          (updateIniSection "[s]\nx = 0\n" "s" [("a", "1"), ("x", "9")])
          "s" [("a", "1"), ("x", "9")]
        = updateIniSection "[s]\nx = 0\n" "s" [("a", "1"), ("x", "9")] :=
  ⟨by decide,
   C4_idempotent_for_wf_updates "[s]\nx = 0\n" "s"
     [("a", "1"), ("x", "9")] (by decide) (by decide) (by decide)
     (by decide) (by decide)⟩

/-- Witness for C9: a six-character message truncated at maximum 3. -/
theorem C9_format_message_witness :
    ("abcdef" : String) ≠ "" ∧ (3 : Nat) ≤ 3
      ∧ (formatMessage "abcdef" 3).data.length = 3 :=
  ⟨by decide, by decide,
   ((C9_format_message "abcdef" 3 (by decide) (by decide)).2 (by decide)).2⟩

end VMA
